import Mathlib

/-!
# async-logger: the SPSC ring buffer and the logger built on it

Shallow embedding of `include/ring_buffer.hpp` and `src/logger.cpp`.

* `size_t` / `uint64_t` values are natural numbers below `sizeMod = 2 ^ 64`;
  every C++ `+` and `-` on them is written with an explicit `% sizeMod`.
* The template parameter `Capacity` is an explicit argument.
* `T buffer_[Capacity]` is a map from slot index to `T`; the only indices the
  code uses are `x & mask`, see `index_lt_Capacity`.
* Sequentially (one thread), an atomic load/store/fetch_add is a plain
  read/write of the field.  The two-thread semantics is the step relation of
  namespace `Conc`, one step per atomic access or slot access.
-/

/-! ## Machine words -/

/-- Number of values of a `size_t` (and of a `uint64_t`). -/
def sizeMod : Nat := 2 ^ 64

/-- Unsigned subtraction of two `size_t` values. -/
def subSize (a b : Nat) : Nat := (a + sizeMod - b) % sizeMod

/-- Unsigned addition of two `size_t` values. -/
def addSize (a b : Nat) : Nat := (a + b) % sizeMod

/-! ## ring_buffer.hpp -/

/-- The data members of `RingBuffer<T, Capacity>`. -/
structure RingBuffer (T : Type) where
  head_ : Nat
  tail_ : Nat
  buffer_ : Nat → T

namespace RingBuffer

variable {T : Type}

/-- The constant `static constexpr size_t mask = Capacity - 1`. -/
def mask (Capacity : Nat) : Nat := subSize Capacity 1

/-- The condition of `static_assert((Capacity & (Capacity - 1)) == 0, ...)`. -/
def capacityCheck (Capacity : Nat) : Bool := Capacity &&& subSize Capacity 1 == 0

/-- Assignment `buffer_[i] = item`. -/
def setSlot (buf : Nat → T) (i : Nat) (item : T) : Nat → T :=
  fun j => if j = i then item else buf j

/-- The constructor `RingBuffer(): head_(0), tail_(0) {}`; the slots of the
array are whatever the storage held (`init`). -/
def new (init : Nat → T) : RingBuffer T :=
  { head_ := 0, tail_ := 0, buffer_ := init }

/-- The member function `bool try_push(const T& item)`, run by one thread. -/
def try_push (Capacity : Nat) (item : T) (rb : RingBuffer T) : Bool × RingBuffer T :=
  let cur_head := rb.head_
  let cur_tail := rb.tail_
  if subSize cur_head cur_tail &&& mask Capacity = mask Capacity then
    (false, rb)
  else
    (true, { rb with
      buffer_ := setSlot rb.buffer_ (cur_head &&& mask Capacity) item
      head_ := addSize cur_head 1 })

/-- The member function `bool try_pop(T& item)`, run by one thread; the second
component is the caller's `item` after the call. -/
def try_pop (Capacity : Nat) (item : T) (rb : RingBuffer T) : Bool × T × RingBuffer T :=
  let cur_tail := rb.tail_
  if cur_tail = rb.head_ then
    (false, item, rb)
  else
    -- fetch_add returns the old value, then adds 1
    let cur_tail := rb.tail_
    let rb1 := { rb with tail_ := addSize rb.tail_ 1 }
    (true, rb1.buffer_ (cur_tail &&& mask Capacity), rb1)

/-- The member function `bool is_empty() const`. -/
def is_empty (rb : RingBuffer T) : Bool := rb.head_ == rb.tail_

/-- The member function `bool is_full() const`. -/
def is_full (Capacity : Nat) (rb : RingBuffer T) : Bool :=
  subSize rb.head_ rb.tail_ &&& mask Capacity == mask Capacity

/-- A capacity that is a power of two and fits a `size_t`. -/
def IsPow2Capacity (Capacity : Nat) : Prop := ∃ k, k < 64 ∧ Capacity = 2 ^ k

/-- The values held between `tail` and `head`, oldest first: slot
`(tail + i) & mask` for `i` below the unsigned distance `head - tail`. -/
def contents (Capacity : Nat) (rb : RingBuffer T) : List T :=
  (List.range (subSize rb.head_ rb.tail_)).map
    (fun i => rb.buffer_ (addSize rb.tail_ i &&& mask Capacity))

/-- The ring buffer `rb` holds exactly the queue `q`: both counters are `size_t`
values, `head` is `tail` plus the length of `q`, which is below `Capacity`, and
the slots between them hold `q`. -/
def Abs (Capacity : Nat) (rb : RingBuffer T) (q : List T) : Prop :=
  rb.head_ < sizeMod ∧ rb.tail_ < sizeMod ∧ q.length < Capacity ∧
  rb.head_ = (rb.tail_ + q.length) % sizeMod ∧ contents Capacity rb = q

end RingBuffer

/-! ## Sequential use: one thread calling `try_push` and `try_pop` -/

/-- One call on the ring buffer. -/
inductive Op (T : Type) where
  | push (item : T)
  | pop

/-- What a call returned: the boolean of `try_push`; for `try_pop`, the value
it left in `item` when it returned true and `none` when it returned false. -/
inductive Ret (T : Type) where
  | push (ok : Bool)
  | pop (value : Option T)

namespace RingBuffer

variable {T : Type}

/-- One call; `d` is the content of the variable passed to `try_pop`. -/
def call (Capacity : Nat) (d : T) : Op T → RingBuffer T → Ret T × RingBuffer T
  | Op.push item, rb =>
    let r := try_push Capacity item rb
    (Ret.push r.1, r.2)
  | Op.pop, rb =>
    let r := try_pop Capacity d rb
    (Ret.pop (if r.1 then some r.2.1 else none), r.2.2)

/-- A finite sequence of calls, with the list of what they returned. -/
def runCalls (Capacity : Nat) (d : T) : List (Op T) → RingBuffer T → List (Ret T) × RingBuffer T
  | [], rb => ([], rb)
  | op :: ops, rb =>
    let r := call Capacity d op rb
    let rest := runCalls Capacity d ops r.2
    (r.1 :: rest.1, rest.2)

/-- The facts about the capacity that the refinement needs, for a capacity up
to `2 ^ 64`: masking with `mask` is the remainder modulo the capacity, which
divides the number of `size_t` values. -/
structure MaskedCapacity (C : Nat) : Prop where
  pos : 1 ≤ C
  le : C ≤ sizeMod
  and_mask : ∀ x, x &&& mask C = x % C
  mask_eq : mask C = C - 1
  mod_mod : ∀ x, x % sizeMod % C = x % C

/-- The calls `try_push(x); try_pop(item)` repeated `n` times. -/
def pushPopCycles (x : T) : Nat → List (Op T)
  | 0 => []
  | n + 1 => Op.push x :: Op.pop :: pushPopCycles x n

end RingBuffer

/-- The values passed to the `try_push` calls that returned true. -/
def pushedValues {T : Type} : List (Op T) → List (Ret T) → List T
  | Op.push x :: ops, Ret.push true :: rs => x :: pushedValues ops rs
  | _ :: ops, _ :: rs => pushedValues ops rs
  | _, _ => []

/-- The values returned by the `try_pop` calls that returned true. -/
def poppedValues {T : Type} : List (Ret T) → List T
  | Ret.pop (some v) :: rs => v :: poppedValues rs
  | _ :: rs => poppedValues rs
  | [] => []

/-! ### The list queue of the specification

The queue the FIFO property compares the ring buffer with: a list bounded at
`Capacity - 1` elements.  These two definitions follow the specification's
words, not the source. -/

namespace QueueSpec

variable {T : Type}

/-- A push succeeds iff the queue holds fewer than `Capacity - 1` elements and
then appends its item; a pop succeeds iff the queue is non-empty and then
returns and removes the oldest element. -/
def call (Capacity : Nat) : Op T → List T → Ret T × List T
  | Op.push item, q =>
    if q.length < Capacity - 1 then (Ret.push true, q ++ [item]) else (Ret.push false, q)
  | Op.pop, [] => (Ret.pop none, [])
  | Op.pop, y :: q => (Ret.pop (some y), q)

/-- A finite sequence of calls on the specification queue. -/
def run (Capacity : Nat) : List (Op T) → List T → List (Ret T) × List T
  | [], q => ([], q)
  | op :: ops, q =>
    let r := call Capacity op q
    let rest := run Capacity ops r.2
    (r.1 :: rest.1, rest.2)

end QueueSpec

/-! ## Two threads: one producer and one consumer

Every access to `head_` and `tail_` is a `seq_cst` atomic operation, so a run of
the two threads is an interleaving of their steps, one step per atomic load,
store or fetch_add and per access to a slot.  The test of a loaded value
touches no shared state and belongs to the step of the load. -/

namespace Conc

/-- Where the producer thread is in `try_push`; `cur_head` is its local. -/
inductive Producer (T : Type) where
  /-- Not inside a call. -/
  | idle
  /-- Called `try_push(item)`; next is `cur_head = head_.load()`. -/
  | loadHead (item : T)
  /-- Next is `cur_tail = tail_.load()` and the full test. -/
  | loadTail (item : T) (cur_head : Nat)
  /-- Next is `buffer_[cur_head & mask] = item`. -/
  | writeSlot (item : T) (cur_head : Nat)
  /-- Next is `head_.store(cur_head + 1)` and `return true`. -/
  | storeHead (item : T) (cur_head : Nat)

/-- Where the consumer thread is in `try_pop`; `cur_tail` is its local. -/
inductive Consumer where
  /-- Not inside a call. -/
  | idle
  /-- Called `try_pop(item)`; next is `cur_tail = tail_.load()`. -/
  | loadTail
  /-- Next is `head_.load()` and the empty test. -/
  | loadHead (cur_tail : Nat)
  /-- Next is `cur_tail = tail_.fetch_add(1)`. -/
  | fetchAdd
  /-- Next is `item = buffer_[cur_tail & mask]` and `return true`. -/
  | readSlot (cur_tail : Nat)

/-- The shared ring buffer, the two threads, and the history of the calls that
returned true: the arguments of those `try_push` calls and the values those
`try_pop` calls left in `item`, in the order of their returns. -/
structure State (T : Type) where
  rb : RingBuffer T
  producer : Producer T
  consumer : Consumer
  pushed : List T
  popped : List T

/-- What the scheduler can pick. -/
inductive Move (T : Type) where
  /-- The producer, idle, calls `try_push(item)`. -/
  | callPush (item : T)
  /-- The producer executes its next step. -/
  | producer
  /-- The consumer, idle, calls `try_pop`. -/
  | callPop
  /-- The consumer executes its next step. -/
  | consumer

variable {T : Type}

/-- One step; `none` when the move is not enabled. -/
def step (Capacity : Nat) : Move T → State T → Option (State T)
  | Move.callPush item, s =>
    match s.producer with
    | Producer.idle => some { s with producer := Producer.loadHead item }
    | _ => none
  | Move.producer, s =>
    match s.producer with
    | Producer.idle => none
    | Producer.loadHead item =>
      some { s with producer := Producer.loadTail item s.rb.head_ }
    | Producer.loadTail item cur_head =>
      let cur_tail := s.rb.tail_
      if subSize cur_head cur_tail &&& RingBuffer.mask Capacity = RingBuffer.mask Capacity then
        some { s with producer := Producer.idle }
      else
        some { s with producer := Producer.writeSlot item cur_head }
    | Producer.writeSlot item cur_head =>
      some { s with
        rb := { s.rb with buffer_ :=
          RingBuffer.setSlot s.rb.buffer_ (cur_head &&& RingBuffer.mask Capacity) item }
        producer := Producer.storeHead item cur_head }
    | Producer.storeHead item cur_head =>
      some { s with
        rb := { s.rb with head_ := addSize cur_head 1 }
        producer := Producer.idle
        pushed := s.pushed ++ [item] }
  | Move.callPop, s =>
    match s.consumer with
    | Consumer.idle => some { s with consumer := Consumer.loadTail }
    | _ => none
  | Move.consumer, s =>
    match s.consumer with
    | Consumer.idle => none
    | Consumer.loadTail => some { s with consumer := Consumer.loadHead s.rb.tail_ }
    | Consumer.loadHead cur_tail =>
      if cur_tail = s.rb.head_ then
        some { s with consumer := Consumer.idle }
      else
        some { s with consumer := Consumer.fetchAdd }
    | Consumer.fetchAdd =>
      some { s with
        rb := { s.rb with tail_ := addSize s.rb.tail_ 1 }
        consumer := Consumer.readSlot s.rb.tail_ }
    | Consumer.readSlot cur_tail =>
      some { s with
        consumer := Consumer.idle
        popped := s.popped ++ [s.rb.buffer_ (cur_tail &&& RingBuffer.mask Capacity)] }

/-- A schedule: the moves are taken in order; `none` if one is not enabled. -/
def exec (Capacity : Nat) : List (Move T) → State T → Option (State T)
  | [], s => some s
  | m :: ms, s =>
    match step Capacity m s with
    | none => none
    | some s1 => exec Capacity ms s1

/-- A freshly constructed buffer and two threads that have called nothing. -/
def init (slots : Nat → T) : State T :=
  { rb := RingBuffer.new slots
    producer := Producer.idle
    consumer := Consumer.idle
    pushed := []
    popped := [] }

/-- One when the consumer has advanced `tail_` and not yet read the slot. -/
def claimed : Consumer → Nat
  | Consumer.readSlot _ => 1
  | _ => 0

/-- What the producer knows at each point of `try_push`. -/
def producerInv (C : Nat) (s : State T) : Prop :=
  match s.producer with
  | Producer.idle => True
  | Producer.loadHead _ => True
  | Producer.loadTail _ cur_head => cur_head = s.rb.head_
  | Producer.writeSlot _ cur_head =>
    cur_head = s.rb.head_ ∧ s.pushed.length + 2 ≤ s.popped.length + claimed s.consumer + C
  | Producer.storeHead item cur_head =>
    cur_head = s.rb.head_ ∧ s.pushed.length + 2 ≤ s.popped.length + claimed s.consumer + C ∧
      s.rb.buffer_ (s.pushed.length % C) = item

/-- What the consumer knows at each point of `try_pop`. -/
def consumerInv (s : State T) : Prop :=
  match s.consumer with
  | Consumer.idle => True
  | Consumer.loadTail => True
  | Consumer.loadHead cur_tail => cur_tail = s.rb.tail_
  | Consumer.fetchAdd => s.popped.length < s.pushed.length
  | Consumer.readSlot cur_tail =>
    cur_tail = s.popped.length % sizeMod ∧ s.popped.length < s.pushed.length

/-- The invariant of the interleaved system: the counters are the numbers of
completed pushes and of claimed pops as `size_t` values, at most `C - 1` apart;
the popped values are the first pushed ones; and every slot between the last
value popped and `head_` holds the value pushed there. -/
structure Inv (C : Nat) (s : State T) : Prop where
  head_eq : s.rb.head_ = s.pushed.length % sizeMod
  tail_eq : s.rb.tail_ = (s.popped.length + claimed s.consumer) % sizeMod
  tail_le : s.popped.length + claimed s.consumer ≤ s.pushed.length
  room : s.pushed.length + 1 ≤ s.popped.length + claimed s.consumer + C
  popped_eq : s.popped = s.pushed.take s.popped.length
  slots : ∀ i, s.popped.length ≤ i → i < s.pushed.length →
    s.pushed[i]? = some (s.rb.buffer_ (i % C))
  producer : producerInv C s
  consumer : consumerInv s

/-- The slot written by the last completed push still holds its item. -/
def lastInv (C : Nat) (s : State T) : Prop :=
  ∀ h, h + 1 = s.pushed.length → s.pushed[h]? = some (s.rb.buffer_ (h % C))

/-- The facts about a power-of-two capacity `C` below `2 ^ 64` that the
invariant needs: masking with `C - 1` is the remainder modulo `C`, and `C`
divides the number of `size_t` values. -/
structure Pow2 (C : Nat) : Prop where
  pos : 1 ≤ C
  lt : C < 2 ^ 64
  and_mask : ∀ x, x &&& RingBuffer.mask C = x % C
  mask_eq : RingBuffer.mask C = C - 1
  mod_mod : ∀ x, x % 2 ^ 64 % C = x % C

end Conc

/-! ## logger.hpp, logger.cpp -/

/-- The struct `Logger::LogEntry`: `char message[512]`, `size_t length`,
`uint64_t timestamp`.  A `char` is its byte value. -/
structure LogEntry where
  message : List Nat
  length : Nat
  timestamp : Nat

/-- The data members of `Logger`.  `background_thread_` records whether the
worker thread has been started and not yet joined; `log_file_` is the list of
records written to the sink so far (each `<<` of a formatted entry followed by
`std::endl` is one record). -/
structure Logger where
  ring_buffer_ : RingBuffer LogEntry
  background_thread_ : Bool
  shutdown_flag_ : Bool
  dropped_count_ : Nat
  log_file_ : List (List Nat)

namespace Logger

/-- The capacity in the member declaration `RingBuffer<LogEntry, 1024> ring_buffer_`. -/
def Capacity : Nat := 1024

/-- The array bound in `char message[512]`, which is `sizeof(entry.message)`. -/
def messageSize : Nat := 512

/-- The constructor `Logger(filename, buffer_size)`.  `opens` tells whether
`log_file_.open` succeeded, `init` is the storage the slots of the ring buffer
start with.  The source names the parameter `buffer_size` and never reads it:
the ring buffer is the member `RingBuffer<LogEntry, 1024>`.  On success the
worker thread is started; when the open fails the constructor throws before
starting it. -/
def new (opens : Bool) (buffer_size : Nat) (init : Nat → LogEntry) : Except String Logger :=
  let _ := buffer_size
  if !opens then
    Except.error "Failed to open log file"
  else
    Except.ok
      { ring_buffer_ := RingBuffer.new init
        background_thread_ := true
        shutdown_flag_ := false
        dropped_count_ := 0
        log_file_ := [] }

/-- The member function `get_dropped_count`. -/
def get_dropped_count (lg : Logger) : Nat := lg.dropped_count_

/-- The entry `Logger::log` builds before it calls `try_push`: `uninit` is the
uninitialised local `LogEntry entry`, `now` the value `get_timestamp_ns()`
returned, `message` the bytes of the argument. -/
def buildEntry (uninit : LogEntry) (now : Nat) (message : List Nat) : LogEntry :=
  let len := min message.length (messageSize - 1)
  -- memcpy(entry.message, message.c_str(), len); entry.message[len] = 0
  { message := (message.take len ++ uninit.message.drop len).set len 0
    length := len
    timestamp := now }

/-- The member function `void log(const std::string& message)`. -/
def log (uninit : LogEntry) (now : Nat) (message : List Nat) (lg : Logger) : Logger :=
  let entry := buildEntry uninit now message
  let r := RingBuffer.try_push Capacity entry lg.ring_buffer_
  if !r.1 then
    { lg with ring_buffer_ := r.2, dropped_count_ := (lg.dropped_count_ + 1) % 2 ^ 64 }
  else
    { lg with ring_buffer_ := r.2 }

/-- The member function `format_log_entry`:
`"[" + std::to_string(entry.timestamp) + "] " + std::string(entry.message, entry.length)`. -/
def format_log_entry (entry : LogEntry) : List Nat :=
  [91] ++ (Nat.toDigits 10 entry.timestamp).map Char.toNat ++ [93, 32] ++
    entry.message.take entry.length

/-- One pass through the body of the polling loop of `background_worker`
(the `sleep_for` of the else branch changes no state); the first component is
the worker's local `entry`. -/
def worker_iteration (st : LogEntry × Logger) : LogEntry × Logger :=
  let r := RingBuffer.try_pop Capacity st.1 st.2.ring_buffer_
  if r.1 then
    (r.2.1, { st.2 with ring_buffer_ := r.2.2
                        log_file_ := st.2.log_file_ ++ [format_log_entry r.2.1] })
  else
    (r.2.1, { st.2 with ring_buffer_ := r.2.2 })

/-- The drain loop of `background_worker`,
`while (ring_buffer_.try_pop(entry)) { log_file_ << ... }`, followed by the
flush.  `fuel` bounds the number of `try_pop` calls; `none` means the bound was
reached before the loop ended. -/
def drain : Nat → LogEntry × Logger → Option (LogEntry × Logger)
  | 0, _ => none
  | fuel + 1, st =>
    let r := RingBuffer.try_pop Capacity st.1 st.2.ring_buffer_
    if r.1 then
      drain fuel (r.2.1, { st.2 with ring_buffer_ := r.2.2
                                     log_file_ := st.2.log_file_ ++ [format_log_entry r.2.1] })
    else
      some (r.2.1, { st.2 with ring_buffer_ := r.2.2 })

/-- The destructor `~Logger`: sets the shutdown flag and joins the worker, which
leaves its polling loop at the next test of the flag and runs the drain loop;
then the file is closed. -/
def destroy (fuel : Nat) (st : LogEntry × Logger) : Option (LogEntry × Logger) :=
  let lg1 := { st.2 with shutdown_flag_ := true }
  match drain fuel (st.1, lg1) with
  | none => none
  | some st2 => some (st2.1, { st2.2 with background_thread_ := false })

/-- What happens to a running logger, one whole operation at a time: a call of
`log` by the producer, or one pass of the worker's polling loop. -/
inductive Event where
  | log (uninit : LogEntry) (now : Nat) (message : List Nat)
  | worker

/-- One event.  The worker's loop body runs only while the shutdown flag is
false. -/
def step (ev : Event) (st : LogEntry × Logger) : LogEntry × Logger :=
  match ev with
  | Event.log uninit now message => (st.1, log uninit now message st.2)
  | Event.worker => if st.2.shutdown_flag_ then st else worker_iteration st

/-- A finite sequence of events. -/
def run : List Event → LogEntry × Logger → LogEntry × Logger
  | [], st => st
  | ev :: evs, st => run evs (step ev st)

/-- The internal `try_push` calls of a run: for each `log` event, the entry it
built and what `try_push` returned. -/
def pushTrace : List Event → LogEntry × Logger → List (LogEntry × Bool)
  | [], _ => []
  | Event.log uninit now message :: evs, st =>
    (buildEntry uninit now message,
      (RingBuffer.try_push Capacity (buildEntry uninit now message) st.2.ring_buffer_).1) ::
      pushTrace evs (step (Event.log uninit now message) st)
  | Event.worker :: evs, st => pushTrace evs (step Event.worker st)

/-- The entries of the `log` calls whose `try_push` returned true. -/
def enqueued (trace : List (LogEntry × Bool)) : List LogEntry :=
  (trace.filter (fun p => p.2)).map (fun p => p.1)

/-- The number of internal `try_push` calls that returned false. -/
def failedPushes (trace : List (LogEntry × Bool)) : Nat :=
  (trace.filter (fun p => !p.2)).length

/-- The number of `log` events in a sequence. -/
def logCalls : List Event → Nat
  | [] => 0
  | Event.log _ _ _ :: evs => logCalls evs + 1
  | Event.worker :: evs => logCalls evs

/-- The events of consecutive `log` calls with no pass of the worker between
them; a call is given by its uninitialised local entry, its clock reading and
its message. -/
def logEvents (calls : List (LogEntry × Nat × List Nat)) : List Event :=
  calls.map (fun c => Event.log c.1 c.2.1 c.2.2)

/-- The members when the constructor body is left, and whether it was left by
the `throw`: the initialisers `shutdown_flag_(false), dropped_count_(0)` and
the default-constructed ring buffer and thread come first, then the open and
its test, and the thread is started last. -/
def construct (opens : Bool) (buffer_size : Nat) (init : Nat → LogEntry) : Logger × Bool :=
  let _ := buffer_size
  let members : Logger :=
    { ring_buffer_ := RingBuffer.new init
      background_thread_ := false
      shutdown_flag_ := false
      dropped_count_ := 0
      log_file_ := [] }
  if !opens then
    (members, true)
  else
    ({ members with background_thread_ := true }, false)

/-- The decimal representation of a number as the specification means it,
written from its words and not from the source: the digits of the number in
base ten, most significant first, as ASCII codes, and `0` for zero. -/
def decimal (n : Nat) : List Nat :=
  if n = 0 then [48] else (Nat.digits 10 n).reverse.map (fun d => 48 + d)

end Logger

/-! ## Theorems -/

/-! ### Arithmetic of the mask and of the counters -/

theorem pow_lt_sizeMod {k : Nat} (hk : k < 64) : 2 ^ k < sizeMod := by
  unfold sizeMod
  exact Nat.pow_lt_pow_right (by decide) hk

theorem pow_dvd_sizeMod {k : Nat} (hk : k < 64) : 2 ^ k ∣ sizeMod := by
  unfold sizeMod
  exact Nat.pow_dvd_pow 2 (Nat.le_of_lt hk)

theorem subSize_add {t n : Nat} (ht : t < sizeMod) (hn : n < sizeMod) :
    subSize ((t + n) % sizeMod) t = n := by
  unfold subSize sizeMod at *
  omega

theorem add_mod_ne {C t i n : Nat} (hin : i < n) (hn : n < C) :
    (t + i) % C ≠ (t + n) % C := by
  intro h
  have h1 : (t + n - (t + i)) % C = 0 := Nat.sub_mod_eq_zero_of_mod_eq h.symm
  have h2 : t + n - (t + i) = n - i := by omega
  rw [h2, Nat.mod_eq_of_lt (by omega)] at h1
  omega

namespace RingBuffer

variable {T : Type}

theorem mask_pow {k : Nat} (hk : k < 64) : mask (2 ^ k) = 2 ^ k - 1 := by
  have h1 := pow_lt_sizeMod hk
  have h2 : 0 < 2 ^ k := Nat.pow_pos (by decide)
  unfold mask subSize
  have : 2 ^ k + sizeMod - 1 = (2 ^ k - 1) + sizeMod := by omega
  rw [this, Nat.add_mod_right]
  exact Nat.mod_eq_of_lt (by omega)

theorem and_mask_pow {k : Nat} (hk : k < 64) (x : Nat) :
    x &&& mask (2 ^ k) = x % 2 ^ k := by
  rw [mask_pow hk, Nat.and_pow_two_sub_one_eq_mod]

/-- Every index the code uses is inside the array. -/
theorem index_lt_Capacity {k : Nat} (hk : k < 64) (x : Nat) :
    x &&& mask (2 ^ k) < 2 ^ k := by
  rw [and_mask_pow hk]
  exact Nat.mod_lt _ (Nat.pow_pos (by decide))

theorem addSize_and_mask {k : Nat} (hk : k < 64) (t i : Nat) :
    addSize t i &&& mask (2 ^ k) = (t + i) % 2 ^ k := by
  rw [and_mask_pow hk]
  exact Nat.mod_mod_of_dvd _ (pow_dvd_sizeMod hk)

end RingBuffer

/-! ### The ring buffer refines the bounded list queue -/

namespace RingBuffer

variable {T : Type}

theorem Abs.distance {C : Nat} {rb : RingBuffer T} {q : List T} (h : Abs C rb q)
    (hC : C ≤ sizeMod) : subSize rb.head_ rb.tail_ = q.length := by
  obtain ⟨_, ht, hlen, hh, _⟩ := h
  rw [hh]
  exact subSize_add ht (by omega)

theorem abs_new {k : Nat} (init : Nat → T) : Abs (2 ^ k) (new init) [] := by
  refine ⟨?_, ?_, ?_, ?_, ?_⟩
  · simp [new, sizeMod]
  · simp [new, sizeMod]
  · simp
  · simp [new]
  · simp [contents, new, subSize]

theorem abs_of_empty {k : Nat} (rb : RingBuffer T) (hw : rb.head_ < sizeMod)
    (he : rb.head_ = rb.tail_) : Abs (2 ^ k) rb [] := by
  refine ⟨hw, he ▸ hw, ?_, ?_, ?_⟩
  · simp
  · simp only [List.length_nil, Nat.add_zero]
    rw [← he, Nat.mod_eq_of_lt hw]
  · have : subSize rb.head_ rb.tail_ = 0 := by
      rw [← he]; unfold subSize sizeMod at *; omega
    simp [contents, this]

theorem abs_push_full {k : Nat} (hk : k < 64) {rb : RingBuffer T} {q : List T}
    (h : Abs (2 ^ k) rb q) (hq : ¬ q.length < 2 ^ k - 1) (item : T) :
    try_push (2 ^ k) item rb = (false, rb) := by
  have hd := h.distance (Nat.le_of_lt (pow_lt_sizeMod hk))
  have hlen : q.length < 2 ^ k := h.2.2.1
  have : subSize rb.head_ rb.tail_ &&& mask (2 ^ k) = mask (2 ^ k) := by
    rw [and_mask_pow hk, mask_pow hk, hd, Nat.mod_eq_of_lt hlen]
    omega
  simp [try_push, this]

theorem abs_push_ok {k : Nat} (hk : k < 64) {rb : RingBuffer T} {q : List T}
    (h : Abs (2 ^ k) rb q) (hq : q.length < 2 ^ k - 1) (item : T) :
    (try_push (2 ^ k) item rb).1 = true ∧
    Abs (2 ^ k) (try_push (2 ^ k) item rb).2 (q ++ [item]) := by
  have hd := h.distance (Nat.le_of_lt (pow_lt_sizeMod hk))
  have hM := pow_lt_sizeMod hk
  obtain ⟨hh, ht, hlen, hhead, hc⟩ := h
  have hne : ¬ (subSize rb.head_ rb.tail_ &&& mask (2 ^ k) = mask (2 ^ k)) := by
    rw [and_mask_pow hk, mask_pow hk, hd, Nat.mod_eq_of_lt hlen]
    omega
  simp only [try_push, if_neg hne, true_and]
  have hpos : 0 < sizeMod := by unfold sizeMod; decide
  refine ⟨Nat.mod_lt _ hpos, ht, ?_, ?_, ?_⟩
  · simp only [List.length_append, List.length_singleton]; omega
  · simp only [addSize, List.length_append, List.length_singleton]
    rw [hhead, Nat.mod_add_mod, Nat.add_assoc]
  · have hd2 : subSize (addSize rb.head_ 1) rb.tail_ = q.length + 1 := by
      have : addSize rb.head_ 1 = (rb.tail_ + (q.length + 1)) % sizeMod := by
        simp only [addSize]
        rw [hhead, Nat.mod_add_mod, Nat.add_assoc]
      rw [this]
      exact subSize_add ht (by omega)
    have hidx : rb.head_ &&& mask (2 ^ k) = (rb.tail_ + q.length) % 2 ^ k := by
      rw [hhead]
      exact addSize_and_mask hk _ _
    simp only [contents, hd2, List.range_succ, List.map_append, List.map_singleton]
    congr 1
    · have hc2 := hc
      simp only [contents, hd] at hc2
      refine Eq.trans ?_ hc2
      apply List.map_congr_left
      intro i hi
      have hi2 : i < q.length := List.mem_range.mp hi
      have : addSize rb.tail_ i &&& mask (2 ^ k) ≠ rb.head_ &&& mask (2 ^ k) := by
        rw [hidx, addSize_and_mask hk]
        exact add_mod_ne hi2 hlen
      simp [setSlot, this]
    · rw [addSize_and_mask hk, hidx]
      simp [setSlot]

theorem abs_pop_nil {C : Nat} {rb : RingBuffer T} (h : Abs C rb []) (d : T) :
    try_pop C d rb = (false, d, rb) := by
  obtain ⟨hh, ht, _, hhead, _⟩ := h
  have : rb.tail_ = rb.head_ := by
    rw [hhead]
    simp only [List.length_nil, Nat.add_zero]
    exact (Nat.mod_eq_of_lt ht).symm
  simp [try_pop, this]

theorem abs_pop_cons {k : Nat} (hk : k < 64) {rb : RingBuffer T} {y : T} {q : List T}
    (h : Abs (2 ^ k) rb (y :: q)) (d : T) :
    (try_pop (2 ^ k) d rb).1 = true ∧ (try_pop (2 ^ k) d rb).2.1 = y ∧
    Abs (2 ^ k) (try_pop (2 ^ k) d rb).2.2 q := by
  have hd := h.distance (Nat.le_of_lt (pow_lt_sizeMod hk))
  have hM := pow_lt_sizeMod hk
  obtain ⟨hh, ht, hlen, hhead, hc⟩ := h
  simp only [List.length_cons] at hlen hhead hd
  have hne : ¬ (rb.tail_ = rb.head_) := by
    intro he
    rw [← he] at hd
    unfold subSize sizeMod at *
    omega
  have hpos : 0 < sizeMod := by unfold sizeMod; decide
  simp only [try_pop, if_neg hne, true_and]
  simp only [contents, hd, List.range_succ_eq_map, List.map_cons, List.map_map,
    List.cons.injEq] at hc
  obtain ⟨hy, hq⟩ := hc
  have hz : addSize rb.tail_ 0 = rb.tail_ := by
    simp only [addSize, Nat.add_zero]; exact Nat.mod_eq_of_lt ht
  rw [hz] at hy
  refine ⟨hy, hh, Nat.mod_lt _ hpos, by omega, ?_, ?_⟩
  · simp only [addSize]
    rw [hhead, Nat.mod_add_mod]
    congr 1; omega
  · have hd2 : subSize rb.head_ (addSize rb.tail_ 1) = q.length := by
      have : rb.head_ = (addSize rb.tail_ 1 + q.length) % sizeMod := by
        simp only [addSize]
        rw [hhead, Nat.mod_add_mod]
        congr 1; omega
      rw [this]
      exact subSize_add (Nat.mod_lt _ hpos) (by omega)
    simp only [contents, hd2]
    refine Eq.trans ?_ hq
    apply List.map_congr_left
    intro i _
    simp only [Function.comp, addSize_and_mask hk]
    congr 1
    simp only [addSize]
    rw [Nat.add_mod, Nat.mod_mod_of_dvd _ (pow_dvd_sizeMod hk), ← Nat.add_mod]
    congr 1; omega

/-- Single call: the ring buffer and the specification queue return the same
result and stay related. -/
theorem call_refines {k : Nat} (hk : k < 64) (d : T) (op : Op T) {rb : RingBuffer T}
    {q : List T} (h : Abs (2 ^ k) rb q) :
    (call (2 ^ k) d op rb).1 = (QueueSpec.call (2 ^ k) op q).1 ∧
    Abs (2 ^ k) (call (2 ^ k) d op rb).2 (QueueSpec.call (2 ^ k) op q).2 := by
  cases op with
  | push item =>
    by_cases hq : q.length < 2 ^ k - 1
    · have hp := abs_push_ok hk h hq item
      simp only [call, QueueSpec.call, if_pos hq, hp.1]
      exact ⟨trivial, hp.2⟩
    · have hp := abs_push_full hk h hq item
      simp only [call, QueueSpec.call, if_neg hq, hp]
      exact ⟨trivial, h⟩
  | pop =>
    cases q with
    | nil =>
      have hp := abs_pop_nil h d
      simp only [call, QueueSpec.call, hp]
      exact ⟨by simp, h⟩
    | cons y q =>
      have hp := abs_pop_cons hk h d
      simp only [call, QueueSpec.call, hp.1, hp.2.1, if_true]
      exact ⟨trivial, hp.2.2⟩

theorem runCalls_refines {k : Nat} (hk : k < 64) (d : T) (ops : List (Op T)) :
    ∀ (rb : RingBuffer T) (q : List T), Abs (2 ^ k) rb q →
      (runCalls (2 ^ k) d ops rb).1 = (QueueSpec.run (2 ^ k) ops q).1 ∧
      Abs (2 ^ k) (runCalls (2 ^ k) d ops rb).2 (QueueSpec.run (2 ^ k) ops q).2 := by
  induction ops with
  | nil => intro rb q h; exact ⟨rfl, h⟩
  | cons op ops ih =>
    intro rb q h
    have h1 := call_refines hk d op h
    have h2 := ih _ _ h1.2
    simp only [runCalls, QueueSpec.run]
    exact ⟨by rw [h1.1, h2.1], h2.2⟩

end RingBuffer

namespace QueueSpec

variable {T : Type}

/-- In a run of the specification queue, what was there plus what was pushed is
what was popped followed by what is left. -/
theorem run_values (C : Nat) (ops : List (Op T)) :
    ∀ q : List T, q ++ pushedValues ops (run C ops q).1 =
      poppedValues (run C ops q).1 ++ (run C ops q).2 := by
  induction ops with
  | nil => intro q; simp [run, pushedValues, poppedValues]
  | cons op ops ih =>
    intro q
    cases op with
    | push item =>
      by_cases hq : q.length < C - 1
      · have := ih (q ++ [item])
        simp only [run, call, if_pos hq, pushedValues, poppedValues]
        simpa using this
      · have := ih q
        simp only [run, call, if_neg hq, pushedValues, poppedValues]
        exact this
    | pop =>
      cases q with
      | nil =>
        have := ih ([] : List T)
        simp only [run, call, pushedValues, poppedValues]
        exact this
      | cons y q =>
        have := ih q
        simp only [run, call, pushedValues, poppedValues, List.cons_append]
        rw [this]

/-- The queue never holds more than `C - 1` elements. -/
theorem run_length (C : Nat) (ops : List (Op T)) :
    ∀ q : List T, q.length ≤ C - 1 → (run C ops q).2.length ≤ C - 1 := by
  induction ops with
  | nil => intro q h; exact h
  | cons op ops ih =>
    intro q h
    cases op with
    | push item =>
      by_cases hq : q.length < C - 1
      · simp only [run, call, if_pos hq]
        exact ih _ (by simp; omega)
      · simp only [run, call, if_neg hq]
        exact ih _ h
    | pop =>
      cases q with
      | nil => simp only [run, call]; exact ih _ h
      | cons y q =>
        simp only [run, call]
        exact ih _ (by simp at h; omega)

theorem run_append (C : Nat) (a b : List (Op T)) :
    ∀ q : List T, run C (a ++ b) q =
      ((run C a q).1 ++ (run C b (run C a q).2).1, (run C b (run C a q).2).2) := by
  induction a with
  | nil => intro q; simp [run]
  | cons op a ih => intro q; simp [run, ih]

theorem run_push_all (C : Nat) (xs : List T) :
    ∀ q : List T, q.length + xs.length ≤ C - 1 →
      run C (xs.map Op.push) q = (xs.map (fun _ => Ret.push true), q ++ xs) := by
  induction xs with
  | nil => intro q _; simp [run]
  | cons x xs ih =>
    intro q h
    simp only [List.length_cons] at h
    have hq : q.length < C - 1 := by omega
    simp only [List.map_cons, run, call, if_pos hq]
    rw [ih (q ++ [x]) (by simp; omega)]
    simp

theorem run_pop_all (C : Nat) :
    ∀ q : List T, run C (List.replicate q.length Op.pop) q =
      (q.map (fun x => Ret.pop (some x)), []) := by
  intro q
  induction q with
  | nil => simp [run]
  | cons y q ih => simp [run, call, List.replicate_succ, ih]

end QueueSpec

namespace RingBuffer

variable {T : Type}

theorem abs_is_full {k : Nat} (hk : k < 64) {rb : RingBuffer T} {q : List T}
    (h : Abs (2 ^ k) rb q) : is_full (2 ^ k) rb = decide (q.length = 2 ^ k - 1) := by
  have hd := h.distance (Nat.le_of_lt (pow_lt_sizeMod hk))
  have hlen : q.length < 2 ^ k := h.2.2.1
  unfold is_full
  rw [and_mask_pow hk, mask_pow hk, hd, Nat.mod_eq_of_lt hlen]
  by_cases hq : q.length = 2 ^ k - 1 <;> simp [hq]

theorem abs_is_empty {k : Nat} (hk : k < 64) {rb : RingBuffer T} {q : List T}
    (h : Abs (2 ^ k) rb q) : is_empty rb = decide (q.length = 0) := by
  have hd := h.distance (Nat.le_of_lt (pow_lt_sizeMod hk))
  obtain ⟨hh, ht, hlen, hhead, hc⟩ := h
  have hM := pow_lt_sizeMod hk
  cases q with
  | nil =>
    simp only [List.length_nil, Nat.add_zero] at hhead
    rw [Nat.mod_eq_of_lt ht] at hhead
    simp [is_empty, hhead]
  | cons y q =>
    have : rb.head_ ≠ rb.tail_ := by
      intro he
      rw [he] at hd
      simp only [List.length_cons] at hd
      unfold subSize sizeMod at *
      omega
    simp [is_empty, this]

end RingBuffer

/-! ### Claims on the sequential operations -/

namespace RingBuffer

variable {T : Type}

/-- C1: when the masked distance `(head - tail) & (Capacity-1)` differs from
`Capacity-1`, `try_push(item)` returns true, the new head is `head + 1` (as a
`size_t`, so literally `head + 1` unless `head` is the largest `size_t`), slot
`head & (Capacity-1)` holds `item`, and `tail` and every other slot are
unchanged.  Holds for every capacity, in particular every power of two. -/
theorem try_push_success (Capacity : Nat) (item : T) (rb : RingBuffer T)
    (h : subSize rb.head_ rb.tail_ &&& mask Capacity ≠ mask Capacity) :
    (try_push Capacity item rb).1 = true ∧
    (try_push Capacity item rb).2.head_ = (rb.head_ + 1) % 2 ^ 64 ∧
    (rb.head_ + 1 < 2 ^ 64 → (try_push Capacity item rb).2.head_ = rb.head_ + 1) ∧
    (try_push Capacity item rb).2.buffer_ (rb.head_ &&& mask Capacity) = item ∧
    (try_push Capacity item rb).2.tail_ = rb.tail_ ∧
    ∀ j, j ≠ rb.head_ &&& mask Capacity →
      (try_push Capacity item rb).2.buffer_ j = rb.buffer_ j := by
  simp only [try_push, if_neg h, addSize, sizeMod, setSlot, if_true, true_and]
  refine ⟨fun hlt => Nat.mod_eq_of_lt hlt, fun j hj => ?_⟩
  simp [hj]

/-- C1 witness: capacity 8, head 9, tail 7, pushing 42 into slot 1. -/
theorem try_push_success_witness :
    subSize 9 7 &&& mask 8 ≠ mask 8 ∧
    (try_push 8 42 ⟨9, 7, fun _ => 0⟩).1 = true ∧
    (try_push 8 42 ⟨9, 7, fun _ => 0⟩).2.head_ = 10 ∧
    (try_push 8 42 ⟨9, 7, fun _ => 0⟩).2.buffer_ 1 = 42 :=
  have h := try_push_success 8 (42 : Nat) ⟨9, 7, fun _ => 0⟩ (by decide)
  ⟨by decide, h.1, h.2.2.1 (by decide), h.2.2.2.1⟩

/-- C2: when the masked distance `(head - tail) & (Capacity-1)` equals
`Capacity-1`, `try_push(item)` returns false and the whole state (head, tail,
every slot) is unchanged.  Holds for every capacity. -/
theorem try_push_full (Capacity : Nat) (item : T) (rb : RingBuffer T)
    (h : subSize rb.head_ rb.tail_ &&& mask Capacity = mask Capacity) :
    (try_push Capacity item rb).1 = false ∧ (try_push Capacity item rb).2 = rb := by
  simp [try_push, h]

/-- C2 witness: capacity 8 holding 7 items (head 7, tail 0). -/
theorem try_push_full_witness :
    subSize 7 0 &&& mask 8 = mask 8 ∧
    (try_push 8 999 (⟨7, 0, fun i => i⟩ : RingBuffer Nat)).1 = false ∧
    (try_push 8 999 (⟨7, 0, fun i => i⟩ : RingBuffer Nat)).2 = ⟨7, 0, fun i => i⟩ :=
  ⟨by decide, try_push_full 8 999 ⟨7, 0, fun i => i⟩ (by decide)⟩

/-- C3: when `tail != head`, `try_pop(item)` returns true, sets `item` to the
content of slot `tail & (Capacity-1)`, advances `tail` by exactly one (as a
`size_t`), and leaves `head` and every slot unchanged. -/
theorem try_pop_success (Capacity : Nat) (item : T) (rb : RingBuffer T)
    (h : rb.tail_ ≠ rb.head_) :
    (try_pop Capacity item rb).1 = true ∧
    (try_pop Capacity item rb).2.1 = rb.buffer_ (rb.tail_ &&& mask Capacity) ∧
    (try_pop Capacity item rb).2.2.tail_ = (rb.tail_ + 1) % 2 ^ 64 ∧
    (rb.tail_ + 1 < 2 ^ 64 → (try_pop Capacity item rb).2.2.tail_ = rb.tail_ + 1) ∧
    (try_pop Capacity item rb).2.2.head_ = rb.head_ ∧
    (try_pop Capacity item rb).2.2.buffer_ = rb.buffer_ := by
  simp only [try_pop, if_neg h, addSize, sizeMod, true_and, and_true]
  exact fun hlt => Nat.mod_eq_of_lt hlt

/-- C3 witness: capacity 8, head 10, tail 9; the pop reads slot 1. -/
theorem try_pop_success_witness :
    (9 : Nat) ≠ 10 ∧
    (try_pop 8 0 (⟨10, 9, fun i => 100 + i⟩ : RingBuffer Nat)).1 = true ∧
    (try_pop 8 0 (⟨10, 9, fun i => 100 + i⟩ : RingBuffer Nat)).2.1 = 101 ∧
    (try_pop 8 0 (⟨10, 9, fun i => 100 + i⟩ : RingBuffer Nat)).2.2.tail_ = 10 :=
  have h := try_pop_success 8 (0 : Nat) ⟨10, 9, fun i => 100 + i⟩ (by decide)
  ⟨by decide, h.1, h.2.1, h.2.2.2.1 (by decide)⟩

/-- C4: when `tail == head`, `try_pop(item)` returns false and modifies
nothing: the state (head, tail, every slot) and the caller's `item` are
unchanged. -/
theorem try_pop_empty (Capacity : Nat) (item : T) (rb : RingBuffer T)
    (h : rb.tail_ = rb.head_) :
    (try_pop Capacity item rb).1 = false ∧
    (try_pop Capacity item rb).2.1 = item ∧
    (try_pop Capacity item rb).2.2 = rb := by
  simp [try_pop, h]

/-- C4 witness: a fresh buffer of capacity 8; the caller's item stays 5. -/
theorem try_pop_empty_witness :
    (0 : Nat) = 0 ∧
    (try_pop 8 5 (new (fun _ => 0) : RingBuffer Nat)).1 = false ∧
    (try_pop 8 5 (new (fun _ => 0) : RingBuffer Nat)).2.1 = 5 ∧
    (try_pop 8 5 (new (fun _ => 0) : RingBuffer Nat)).2.2 = new (fun _ => 0) :=
  ⟨rfl, try_pop_empty 8 5 (new (fun _ => 0)) rfl⟩

/-- C5: sequential FIFO.  Any finite sequence of `try_push`/`try_pop` calls on a
freshly constructed buffer of power-of-two capacity returns, call by call,
exactly what the list queue bounded at `Capacity - 1` elements returns; the
values between tail and head are then the queue; and the values returned by
the successful pops are a prefix of the values of the successful pushes. -/
theorem sequential_fifo (Capacity : Nat) (hC : IsPow2Capacity Capacity) (d : T)
    (init : Nat → T) (ops : List (Op T)) :
    (runCalls Capacity d ops (new init)).1 = (QueueSpec.run Capacity ops []).1 ∧
    contents Capacity (runCalls Capacity d ops (new init)).2 =
      (QueueSpec.run Capacity ops []).2 ∧
    poppedValues (runCalls Capacity d ops (new init)).1 <+:
      pushedValues ops (runCalls Capacity d ops (new init)).1 := by
  obtain ⟨k, hk, rfl⟩ := hC
  have h := runCalls_refines hk d ops (new init) [] (abs_new init)
  refine ⟨h.1, h.2.2.2.2.2, ?_⟩
  rw [h.1]
  have hv := QueueSpec.run_values (2 ^ k) ops ([] : List T)
  rw [List.nil_append] at hv
  exact ⟨_, hv.symm⟩

/-- C5 witness: capacity 8, calls push 1, push 2, pop, pop, pop. -/
theorem sequential_fifo_witness :
    IsPow2Capacity 8 ∧
    (runCalls 8 0 [Op.push 1, Op.push 2, Op.pop, Op.pop, Op.pop] (new (fun _ => 0))).1 =
      (QueueSpec.run 8 [Op.push 1, Op.push 2, Op.pop, Op.pop, Op.pop] []).1 ∧
    contents 8 (runCalls 8 0 [Op.push 1, Op.push 2, Op.pop, Op.pop, Op.pop]
      (new (fun _ => 0))).2 =
      (QueueSpec.run 8 [Op.push 1, Op.push 2, Op.pop, Op.pop, Op.pop] []).2 ∧
    poppedValues (runCalls 8 0 [Op.push 1, Op.push 2, Op.pop, Op.pop, Op.pop]
      (new (fun _ => 0))).1 <+:
      pushedValues [Op.push 1, Op.push 2, Op.pop, Op.pop, Op.pop]
        (runCalls 8 0 [Op.push 1, Op.push 2, Op.pop, Op.pop, Op.pop] (new (fun _ => 0))).1 :=
  ⟨⟨3, by decide, rfl⟩,
    sequential_fifo 8 ⟨3, by decide, rfl⟩ (0 : Nat) (fun _ => 0)
      [Op.push 1, Op.push 2, Op.pop, Op.pop, Op.pop]⟩

/-- C6: capacity property.  On a freshly constructed buffer of power-of-two
capacity `C`, `C - 1` consecutive `try_push` calls all return true, then
`is_full()` is true and one more `try_push` returns false; and after any
sequence of calls the number of items held (the unsigned distance
`head - tail`) is at most `C - 1`. -/
theorem capacity_property (Capacity : Nat) (hC : IsPow2Capacity Capacity) (d : T)
    (init : Nat → T) (xs : List T) (hx : xs.length = Capacity - 1) (y : T) :
    (runCalls Capacity d (xs.map Op.push) (new init)).1 =
      List.replicate (Capacity - 1) (Ret.push true) ∧
    is_full Capacity (runCalls Capacity d (xs.map Op.push) (new init)).2 = true ∧
    (try_push Capacity y (runCalls Capacity d (xs.map Op.push) (new init)).2).1 = false ∧
    ∀ ops : List (Op T),
      subSize (runCalls Capacity d ops (new init)).2.head_
        (runCalls Capacity d ops (new init)).2.tail_ ≤ Capacity - 1 := by
  obtain ⟨k, hk, rfl⟩ := hC
  have h := runCalls_refines hk d (xs.map Op.push) (new init) [] (abs_new init)
  have hs := QueueSpec.run_push_all (2 ^ k) xs ([] : List T) (by simp [hx])
  rw [hs] at h
  simp only [List.nil_append] at h
  refine ⟨?_, ?_, ?_, ?_⟩
  · rw [h.1, ← hx]
    simp [List.eq_replicate_iff]
  · rw [abs_is_full hk h.2]
    simp [hx]
  · rw [abs_push_full hk h.2 (by omega) y]
  · intro ops
    have ho := runCalls_refines hk d ops (new init) [] (abs_new init)
    rw [ho.2.distance (Nat.le_of_lt (pow_lt_sizeMod hk))]
    exact QueueSpec.run_length (2 ^ k) ops [] (Nat.zero_le _)

/-- C6 witness: capacity 8, pushing 0..6 and then 999. -/
theorem capacity_property_witness :
    IsPow2Capacity 8 ∧ [0, 1, 2, 3, 4, 5, 6].length = 8 - 1 ∧
    (runCalls 8 0 ([0, 1, 2, 3, 4, 5, 6].map Op.push) (new (fun _ => 0))).1 =
      List.replicate 7 (Ret.push true) ∧
    is_full 8 (runCalls 8 0 ([0, 1, 2, 3, 4, 5, 6].map Op.push) (new (fun _ => 0))).2 = true ∧
    (try_push 8 999
      (runCalls 8 0 ([0, 1, 2, 3, 4, 5, 6].map Op.push) (new (fun _ => 0))).2).1 = false :=
  have h := capacity_property 8 ⟨3, by decide, rfl⟩ (0 : Nat) (fun _ => 0)
    [0, 1, 2, 3, 4, 5, 6] rfl 999
  ⟨⟨3, by decide, rfl⟩, rfl, h.1, h.2.1, h.2.2.1⟩

/-- C7: no-loss round trip with wraparound.  From any empty state of a buffer
of power-of-two capacity `C` (head equal to tail at any counter value, any slot
contents), pushing `k ≤ C - 1` values and then popping `k` times makes every
push and every pop return true, the pops return the pushed values in push
order, and afterwards the buffer is empty and one more `try_pop` returns
false. -/
theorem round_trip (Capacity : Nat) (hC : IsPow2Capacity Capacity) (d : T)
    (rb : RingBuffer T) (hw : rb.head_ < sizeMod) (he : rb.head_ = rb.tail_)
    (xs : List T) (hx : xs.length ≤ Capacity - 1) :
    (runCalls Capacity d (xs.map Op.push ++ List.replicate xs.length Op.pop) rb).1 =
      xs.map (fun _ => Ret.push true) ++ xs.map (fun x => Ret.pop (some x)) ∧
    is_empty (runCalls Capacity d
      (xs.map Op.push ++ List.replicate xs.length Op.pop) rb).2 = true ∧
    (try_pop Capacity d (runCalls Capacity d
      (xs.map Op.push ++ List.replicate xs.length Op.pop) rb).2).1 = false := by
  obtain ⟨k, hk, rfl⟩ := hC
  have h := runCalls_refines hk d (xs.map Op.push ++ List.replicate xs.length Op.pop)
    rb [] (abs_of_empty rb hw he)
  have hs : QueueSpec.run (2 ^ k) (xs.map Op.push ++ List.replicate xs.length Op.pop)
      ([] : List T) =
      (xs.map (fun _ => Ret.push true) ++ xs.map (fun x => Ret.pop (some x)), []) := by
    rw [QueueSpec.run_append, QueueSpec.run_push_all (2 ^ k) xs [] (by simpa using hx)]
    simp only [List.nil_append]
    rw [QueueSpec.run_pop_all]
  rw [hs] at h
  refine ⟨h.1, ?_, ?_⟩
  · rw [abs_is_empty hk h.2]; rfl
  · rw [abs_pop_nil h.2 d]

/-- C7 witness: capacity 8, both counters at `2 ^ 64 - 3`, so that the seven
pushes carry `head` across the wrap of the counter. -/
theorem round_trip_witness :
    IsPow2Capacity 8 ∧ 18446744073709551613 < sizeMod ∧
    [100, 101, 102, 103, 104, 105, 106].length ≤ 8 - 1 ∧
    (runCalls 8 0 ([100, 101, 102, 103, 104, 105, 106].map Op.push ++
        List.replicate 7 Op.pop)
      ⟨18446744073709551613, 18446744073709551613, fun _ => 0⟩).1 =
      List.replicate 7 (Ret.push true) ++
        [100, 101, 102, 103, 104, 105, 106].map (fun x => Ret.pop (some x)) :=
  have h := round_trip 8 ⟨3, by decide, rfl⟩ (0 : Nat)
    ⟨18446744073709551613, 18446744073709551613, fun _ => 0⟩ (by decide) rfl
    [100, 101, 102, 103, 104, 105, 106] (by decide)
  ⟨⟨3, by decide, rfl⟩, by decide, by decide, h.1⟩

end RingBuffer

/-! ### One producer and one consumer -/

namespace Conc

variable {T : Type}

theorem pow2_of {k : Nat} (hk : k < 64) : Pow2 (2 ^ k) where
  pos := Nat.pow_pos (by decide)
  lt := pow_lt_sizeMod hk
  and_mask := RingBuffer.and_mask_pow hk
  mask_eq := RingBuffer.mask_pow hk
  mod_mod := fun x => Nat.mod_mod_of_dvd x (pow_dvd_sizeMod hk)

theorem mod_ne_of_lt {C i n : Nat} (hin : i < n) (hn : n < i + C) : i % C ≠ n % C := by
  have h := add_mod_ne (C := C) (t := i) (i := 0) (n := n - i) (by omega) (by omega)
  rw [Nat.add_zero] at h
  have e : i + (n - i) = n := by omega
  rw [e] at h
  exact h

theorem inv_init {C : Nat} (hC : Pow2 C) (slots : Nat → T) : Inv C (init slots) where
  head_eq := by simp [init, RingBuffer.new]
  tail_eq := by simp [init, RingBuffer.new, claimed]
  tail_le := by simp [init, claimed]
  room := by have := hC.pos; simp [init, claimed]; omega
  popped_eq := by simp [init]
  slots := by intro i _ h; simp [init] at h
  producer := by simp [producerInv, init]
  consumer := by simp [consumerInv, init]

theorem inv_callPush {C : Nat} {s s1 : State T} (item : T) (h : Inv C s)
    (hs : step C (Move.callPush item) s = some s1) : Inv C s1 := by
  obtain ⟨rb, pr, co, pushed, popped⟩ := s
  cases pr <;> simp only [step, Option.some.injEq, reduceCtorEq] at hs
  subst hs
  exact { h with producer := by simp [producerInv] }

theorem inv_callPop {C : Nat} {s s1 : State T} (h : Inv C s)
    (hs : step C Move.callPop s = some s1) : Inv C s1 := by
  obtain ⟨rb, pr, co, pushed, popped⟩ := s
  cases co <;> simp only [step, Option.some.injEq, reduceCtorEq] at hs
  subst hs
  obtain ⟨h1, h2, h3, h4, h5, h6, h7, h8⟩ := h
  refine ⟨h1, h2, h3, h4, h5, h6, ?_, by simp [consumerInv]⟩
  cases pr <;> exact h7

theorem inv_producer {C : Nat} (hC : Pow2 C) {s s1 : State T} (h : Inv C s)
    (hs : step C Move.producer s = some s1) : Inv C s1 := by
  obtain ⟨rb, pr, co, pushed, popped⟩ := s
  obtain ⟨h1, h2, h3, h4, h5, h6, h7, h8⟩ := h
  have hpos := hC.pos
  have hlt := hC.lt
  dsimp only at h1 h2 h3 h4 h5 h6
  simp only [sizeMod] at h1 h2
  cases pr with
  | idle => simp [step] at hs
  | loadHead item =>
    simp only [step, Option.some.injEq] at hs
    subst hs
    exact ⟨h1, h2, h3, h4, h5, h6, by simp [producerInv], h8⟩
  | loadTail item cur_head =>
    simp only [producerInv] at h7
    simp only [step] at hs
    split at hs
    · simp only [Option.some.injEq] at hs
      subst hs
      exact ⟨h1, h2, h3, h4, h5, h6, by simp [producerInv], h8⟩
    · rename_i hne
      simp only [Option.some.injEq] at hs
      subst hs
      refine ⟨h1, h2, h3, h4, h5, h6, ?_, h8⟩
      simp only [producerInv]
      refine ⟨h7, ?_⟩
      have hd : subSize cur_head rb.tail_ =
          pushed.length - (popped.length + claimed co) := by
        rw [h7]
        simp only [subSize, sizeMod] at *
        omega
      rw [hC.and_mask, hC.mask_eq, hd, Nat.mod_eq_of_lt (by omega)] at hne
      omega
  | writeSlot item cur_head =>
    simp only [producerInv] at h7
    simp only [step, Option.some.injEq] at hs
    subst hs
    have hidx : cur_head &&& RingBuffer.mask C = pushed.length % C := by
      rw [hC.and_mask, h7.1]
      show rb.head_ % C = _
      rw [h1, hC.mod_mod]
    have hcl : claimed co ≤ 1 := by cases co <;> simp [claimed]
    refine ⟨h1, h2, h3, h4, h5, ?_, ?_, h8⟩
    · intro i hi1 hi2
      dsimp only at hi1 hi2 ⊢
      have hne : i % C ≠ pushed.length % C := mod_ne_of_lt hi2 (by
        have := h7.2
        omega)
      rw [h6 i hi1 hi2]
      simp [RingBuffer.setSlot, hidx, hne]
    · simp only [producerInv]
      exact ⟨h7.1, h7.2, by simp [RingBuffer.setSlot, hidx]⟩
  | storeHead item cur_head =>
    simp only [producerInv] at h7
    simp only [step, Option.some.injEq] at hs
    subst hs
    obtain ⟨g1, g2, g3⟩ := h7
    refine ⟨?_, h2, ?_, ?_, ?_, ?_, by simp [producerInv], ?_⟩
    · simp only [addSize, sizeMod, List.length_append, List.length_singleton]
      rw [g1]
      show (rb.head_ + 1) % 2 ^ 64 = _
      rw [h1]
      omega
    · simp only [List.length_append, List.length_singleton]; omega
    · simp only [List.length_append, List.length_singleton]; omega
    · show popped = List.take popped.length (pushed ++ [item])
      rw [List.take_append_of_le_length (by omega)]
      exact h5
    · intro i hi1 hi2
      simp only [List.length_append, List.length_singleton] at hi2
      show (pushed ++ [item])[i]? = some (rb.buffer_ (i % C))
      by_cases hi : i < pushed.length
      · rw [List.getElem?_append_left hi]
        exact h6 i hi1 hi
      · have : i = pushed.length := by omega
        subst this
        rw [List.getElem?_append_right (Nat.le_refl _)]
        simp [g3]
    · cases co with
      | idle => trivial
      | loadTail => trivial
      | loadHead t => exact h8
      | fetchAdd =>
        simp only [consumerInv, List.length_append, List.length_singleton] at h8 ⊢
        omega
      | readSlot t =>
        simp only [consumerInv, List.length_append, List.length_singleton] at h8 ⊢
        exact ⟨h8.1, by omega⟩

theorem inv_consumer {C : Nat} (hC : Pow2 C) {s s1 : State T} (h : Inv C s)
    (hs : step C Move.consumer s = some s1) : Inv C s1 := by
  obtain ⟨rb, pr, co, pushed, popped⟩ := s
  obtain ⟨h1, h2, h3, h4, h5, h6, h7, h8⟩ := h
  have hpos := hC.pos
  have hlt := hC.lt
  dsimp only at h1 h2 h3 h4 h5 h6
  simp only [sizeMod] at h1 h2
  cases co with
  | idle => simp [step] at hs
  | loadTail =>
    simp only [step, Option.some.injEq] at hs
    subst hs
    refine ⟨h1, h2, h3, h4, h5, h6, ?_, by simp [consumerInv]⟩
    cases pr <;> exact h7
  | loadHead cur_tail =>
    simp only [consumerInv] at h8
    simp only [step] at hs
    split at hs
    · simp only [Option.some.injEq] at hs
      subst hs
      refine ⟨h1, h2, h3, h4, h5, h6, ?_, by simp [consumerInv]⟩
      cases pr <;> exact h7
    · rename_i hne
      simp only [Option.some.injEq] at hs
      subst hs
      refine ⟨h1, h2, h3, h4, h5, h6, ?_, ?_⟩
      · cases pr <;> exact h7
      · simp only [consumerInv]
        simp only [claimed, Nat.add_zero] at h2 h3 h4
        rw [h8] at hne
        rw [h1, h2] at hne
        have : popped.length ≠ pushed.length := fun e => hne (by rw [e])
        omega
  | fetchAdd =>
    simp only [consumerInv] at h8
    simp only [step, Option.some.injEq] at hs
    subst hs
    simp only [claimed, Nat.add_zero] at h2 h3 h4
    refine ⟨h1, ?_, ?_, ?_, h5, h6, ?_, ?_⟩
    · simp only [claimed, addSize, sizeMod]
      rw [h2]
      omega
    · simp only [claimed]; omega
    · simp only [claimed]; omega
    · cases pr with
      | idle => trivial
      | loadHead item => trivial
      | loadTail item t => exact h7
      | writeSlot item t =>
        simp only [producerInv, claimed, Nat.add_zero] at h7 ⊢
        exact ⟨h7.1, by omega⟩
      | storeHead item t =>
        simp only [producerInv, claimed, Nat.add_zero] at h7 ⊢
        exact ⟨h7.1, by omega, h7.2.2⟩
    · simp only [consumerInv, sizeMod]
      exact ⟨h2, h8⟩
  | readSlot cur_tail =>
    simp only [consumerInv, sizeMod] at h8
    simp only [step, Option.some.injEq] at hs
    subst hs
    obtain ⟨g1, g2⟩ := h8
    simp only [claimed] at h2 h3 h4
    have hidx : cur_tail &&& RingBuffer.mask C = popped.length % C := by
      rw [hC.and_mask, g1, hC.mod_mod]
    have hval := h6 popped.length (Nat.le_refl _) g2
    refine ⟨h1, ?_, ?_, ?_, ?_, ?_, ?_, by simp [consumerInv]⟩
    · simp only [claimed, List.length_append, List.length_singleton, Nat.add_zero]
      exact h2
    · simp only [claimed, List.length_append, List.length_singleton]; omega
    · simp only [claimed, List.length_append, List.length_singleton]; omega
    · show popped ++ [rb.buffer_ (cur_tail &&& RingBuffer.mask C)] =
        List.take (popped ++ [rb.buffer_ (cur_tail &&& RingBuffer.mask C)]).length pushed
      simp only [List.length_append, List.length_singleton]
      rw [List.take_succ, hval, hidx, ← h5]
      rfl
    · intro i hi1 hi2
      simp only [List.length_append, List.length_singleton] at hi1
      exact h6 i (by omega) hi2
    · cases pr with
      | idle => trivial
      | loadHead item => trivial
      | loadTail item t => exact h7
      | writeSlot item t =>
        simp only [producerInv, claimed, List.length_append, List.length_singleton,
          Nat.add_zero] at h7 ⊢
        exact h7
      | storeHead item t =>
        simp only [producerInv, claimed, List.length_append, List.length_singleton,
          Nat.add_zero] at h7 ⊢
        exact h7

theorem inv_step {C : Nat} (hC : Pow2 C) (m : Move T) {s s1 : State T} (h : Inv C s)
    (hs : step C m s = some s1) : Inv C s1 := by
  cases m with
  | callPush item => exact inv_callPush item h hs
  | producer => exact inv_producer hC h hs
  | callPop => exact inv_callPop h hs
  | consumer => exact inv_consumer hC h hs

/-- The invariant holds after every schedule that starts in a state where it
holds. -/
theorem inv_exec {C : Nat} (hC : Pow2 C) (ms : List (Move T)) :
    ∀ {s s1 : State T}, Inv C s → exec C ms s = some s1 → Inv C s1 := by
  induction ms with
  | nil =>
    intro s s1 h hs
    simp only [exec, Option.some.injEq] at hs
    exact hs ▸ h
  | cons m ms ih =>
    intro s s1 h hs
    simp only [exec] at hs
    cases hm : step C m s with
    | none => simp [hm] at hs
    | some s2 =>
      rw [hm] at hs
      exact ih (inv_step hC m h hm) hs

end Conc

/-! ### The logger -/

namespace Logger

theorem Capacity_eq : Capacity = 2 ^ 10 := by decide

/-- What one event does to a logger whose ring buffer holds the queue `q`. -/
theorem step_inv (ev : Event) (st : LogEntry × Logger) (q : List LogEntry)
    (h : RingBuffer.Abs Capacity st.2.ring_buffer_ q) :
    ∃ q', RingBuffer.Abs Capacity (step ev st).2.ring_buffer_ q' ∧
      (step ev st).2.log_file_ ++ q'.map format_log_entry =
        st.2.log_file_ ++ q.map format_log_entry ++
          (enqueued (pushTrace [ev] st)).map format_log_entry := by
  rw [Capacity_eq] at h
  cases ev with
  | log uninit now message =>
    by_cases hq : q.length < 2 ^ 10 - 1
    · have hp := RingBuffer.abs_push_ok (by decide : 10 < 64) h hq
        (buildEntry uninit now message)
      rw [← Capacity_eq] at hp
      refine ⟨q ++ [buildEntry uninit now message], ?_, ?_⟩
      · simp only [step, log, hp.1]
        exact hp.2
      · simp [step, log, hp.1, pushTrace, enqueued]
    · have hp := RingBuffer.abs_push_full (by decide : 10 < 64) h hq
        (buildEntry uninit now message)
      rw [← Capacity_eq] at hp h
      refine ⟨q, ?_, ?_⟩
      · simp only [step, log, hp]
        exact h
      · simp [step, log, hp, pushTrace, enqueued]
  | worker =>
    by_cases hs : st.2.shutdown_flag_ = true
    · rw [← Capacity_eq] at h
      refine ⟨q, ?_, ?_⟩
      · simp only [step, hs, if_true]; exact h
      · simp [step, hs, pushTrace, enqueued]
    · cases q with
      | nil =>
        rw [← Capacity_eq] at h
        have hp := RingBuffer.abs_pop_nil h st.1
        refine ⟨[], ?_, ?_⟩
        · simp only [step, hs, worker_iteration, hp]
          exact h
        · simp [step, hs, worker_iteration, hp, pushTrace, enqueued]
      | cons y q =>
        have hp := RingBuffer.abs_pop_cons (by decide : 10 < 64) h st.1
        rw [← Capacity_eq] at hp
        refine ⟨q, ?_, ?_⟩
        · simp only [step, hs, worker_iteration, hp.1]
          exact hp.2.2
        · simp [step, hs, worker_iteration, hp.1, hp.2.1, pushTrace, enqueued]

theorem pushTrace_cons (ev : Event) (evs : List Event) (st : LogEntry × Logger) :
    pushTrace (ev :: evs) st = pushTrace [ev] st ++ pushTrace evs (step ev st) := by
  cases ev <;> simp [pushTrace]

theorem enqueued_append (a b : List (LogEntry × Bool)) :
    enqueued (a ++ b) = enqueued a ++ enqueued b := by
  simp [enqueued]

theorem failedPushes_append (a b : List (LogEntry × Bool)) :
    failedPushes (a ++ b) = failedPushes a + failedPushes b := by
  simp [failedPushes]

/-- Over a run: the sink followed by the buffered entries is the sink and the
buffered entries at the start followed by the entries enqueued since. -/
theorem run_inv (evs : List Event) :
    ∀ (st : LogEntry × Logger) (q : List LogEntry),
      RingBuffer.Abs Capacity st.2.ring_buffer_ q →
      ∃ q', RingBuffer.Abs Capacity (run evs st).2.ring_buffer_ q' ∧
        (run evs st).2.log_file_ ++ q'.map format_log_entry =
          st.2.log_file_ ++ q.map format_log_entry ++
            (enqueued (pushTrace evs st)).map format_log_entry := by
  induction evs with
  | nil => intro st q h; exact ⟨q, h, by simp [run, pushTrace, enqueued]⟩
  | cons ev evs ih =>
    intro st q h
    obtain ⟨q1, h1, e1⟩ := step_inv ev st q h
    obtain ⟨q2, h2, e2⟩ := ih (step ev st) q1 h1
    refine ⟨q2, h2, ?_⟩
    rw [pushTrace_cons, enqueued_append, List.map_append]
    simp only [run]
    rw [e2, e1]
    simp [List.append_assoc]

/-- The drain loop on a logger whose ring buffer holds `q`: it ends at the
`(q.length + 1)`-th `try_pop`, writes the records of `q` and empties the buffer. -/
theorem drain_inv (q : List LogEntry) :
    ∀ (st : LogEntry × Logger), RingBuffer.Abs Capacity st.2.ring_buffer_ q →
      drain q.length st = none ∧
      ∃ st', (∀ fuel, q.length + 1 ≤ fuel → drain fuel st = some st') ∧
        RingBuffer.Abs Capacity st'.2.ring_buffer_ [] ∧
        st'.2.log_file_ = st.2.log_file_ ++ q.map format_log_entry ∧
        st'.2.dropped_count_ = st.2.dropped_count_ ∧
        st'.2.shutdown_flag_ = st.2.shutdown_flag_ := by
  induction q with
  | nil =>
    intro st h
    have hp := RingBuffer.abs_pop_nil h st.1
    refine ⟨rfl, ⟨st.1, st.2⟩, ?_, h, by simp, rfl, rfl⟩
    intro fuel hf
    obtain ⟨n, rfl⟩ : ∃ n, fuel = n + 1 := ⟨fuel - 1, by omega⟩
    simp [drain, hp]
  | cons y q ih =>
    intro st h
    rw [Capacity_eq] at h
    have hp := RingBuffer.abs_pop_cons (by decide : 10 < 64) h st.1
    rw [← Capacity_eq] at hp
    obtain ⟨hn, st', hs, ha, hl, hd, hf⟩ := ih
      (y, { st.2 with ring_buffer_ := (RingBuffer.try_pop Capacity st.1 st.2.ring_buffer_).2.2
                      log_file_ := st.2.log_file_ ++ [format_log_entry y] }) hp.2.2
    refine ⟨?_, st', ?_, ha, ?_, hd, hf⟩
    · simp only [List.length_cons, drain, hp.1, hp.2.1, if_true]
      exact hn
    · intro fuel hfu
      obtain ⟨n, rfl⟩ : ∃ n, fuel = n + 1 := ⟨fuel - 1, by simp at hfu; omega⟩
      simp only [drain, hp.1, hp.2.1, if_true]
      exact hs n (by simp at hfu; omega)
    · rw [hl]; simp

theorem try_push_refused {T : Type} (C : Nat) (item : T) (rb : RingBuffer T)
    (h : (RingBuffer.try_push C item rb).1 = false) :
    (RingBuffer.try_push C item rb).2 = rb := by
  by_cases hc : subSize rb.head_ rb.tail_ &&& RingBuffer.mask C = RingBuffer.mask C
  · simp [RingBuffer.try_push, hc]
  · simp [RingBuffer.try_push, hc] at h

theorem pushTrace_length (evs : List Event) :
    ∀ st : LogEntry × Logger, (pushTrace evs st).length = logCalls evs := by
  induction evs with
  | nil => intro st; rfl
  | cons ev evs ih =>
    intro st
    cases ev <;> simp [pushTrace, logCalls, ih]

theorem failed_add_enqueued (trace : List (LogEntry × Bool)) :
    failedPushes trace + (enqueued trace).length = trace.length := by
  induction trace with
  | nil => rfl
  | cons p trace ih =>
    rcases p with ⟨e, b⟩
    cases b <;> simp [failedPushes, enqueued, List.filter_cons] at ih ⊢ <;> omega

theorem step_dropped (ev : Event) (st : LogEntry × Logger) :
    (step ev st).2.dropped_count_ =
      (st.2.dropped_count_ + failedPushes (pushTrace [ev] st)) % 2 ^ 64 ∨
    ((step ev st).2.dropped_count_ = st.2.dropped_count_ ∧
      failedPushes (pushTrace [ev] st) = 0) := by
  cases ev with
  | log uninit now message =>
    cases hp : (RingBuffer.try_push Capacity (buildEntry uninit now message)
        st.2.ring_buffer_).1
    · left; simp [step, log, hp, pushTrace, failedPushes]
    · right; simp [step, log, hp, pushTrace, failedPushes]
  | worker =>
    right
    by_cases hs : st.2.shutdown_flag_ = true
    · simp [step, hs, pushTrace, failedPushes]
    · cases hp : (RingBuffer.try_pop Capacity st.1 st.2.ring_buffer_).1 <;>
        simp [step, hs, worker_iteration, hp, pushTrace, failedPushes]

theorem run_dropped (evs : List Event) :
    ∀ st : LogEntry × Logger, st.2.dropped_count_ < 2 ^ 64 →
      (run evs st).2.dropped_count_ =
        (st.2.dropped_count_ + failedPushes (pushTrace evs st)) % 2 ^ 64 := by
  induction evs with
  | nil =>
    intro st h
    simp only [run, pushTrace, failedPushes, List.filter_nil, List.length_nil, Nat.add_zero]
    exact (Nat.mod_eq_of_lt h).symm
  | cons ev evs ih =>
    intro st h
    rw [pushTrace_cons, failedPushes_append]
    simp only [run]
    rcases step_dropped ev st with h1 | ⟨h1, h2⟩
    · rw [ih _ (by rw [h1]; exact Nat.mod_lt _ (by decide)), h1, Nat.mod_add_mod,
        Nat.add_assoc]
    · rw [ih _ (by rw [h1]; exact h), h1, h2, Nat.zero_add]

/-- C9, amended: drop accounting.  Every `log` call either has its `try_push`
return true, leaves the ring buffer as that push left it and keeps the drop
counter, or has it return false, leaves the ring buffer unchanged and adds one
to the drop counter (a `uint64_t`); it returns normally in both cases and
touches nothing else.  For every sequence of `log` calls and worker passes on a
freshly constructed logger, the failed and the successful pushes add up to the
number of `log` calls, and `get_dropped_count()` is the number of failed pushes
modulo `2 ^ 64`; whenever fewer than `2 ^ 64` pushes have failed it is that
number, and added to the number of enqueued entries it gives the number of
calls. -/
theorem drop_accounting :
    (∀ (uninit : LogEntry) (now : Nat) (message : List Nat) (lg : Logger),
      (((RingBuffer.try_push Capacity (buildEntry uninit now message)
            lg.ring_buffer_).1 = true ∧
          (log uninit now message lg).ring_buffer_ =
            (RingBuffer.try_push Capacity (buildEntry uninit now message)
              lg.ring_buffer_).2 ∧
          (log uninit now message lg).dropped_count_ = lg.dropped_count_) ∨
        ((RingBuffer.try_push Capacity (buildEntry uninit now message)
            lg.ring_buffer_).1 = false ∧
          (log uninit now message lg).ring_buffer_ = lg.ring_buffer_ ∧
          (log uninit now message lg).dropped_count_ =
            (lg.dropped_count_ + 1) % 2 ^ 64)) ∧
      (log uninit now message lg).log_file_ = lg.log_file_ ∧
      (log uninit now message lg).shutdown_flag_ = lg.shutdown_flag_ ∧
      (log uninit now message lg).background_thread_ = lg.background_thread_) ∧
    (∀ (buffer_size : Nat) (init : Nat → LogEntry) (lg0 : Logger) (e0 : LogEntry)
        (evs : List Event), new true buffer_size init = Except.ok lg0 →
      failedPushes (pushTrace evs (e0, lg0)) +
          (enqueued (pushTrace evs (e0, lg0))).length = logCalls evs ∧
      get_dropped_count (run evs (e0, lg0)).2 =
        failedPushes (pushTrace evs (e0, lg0)) % 2 ^ 64 ∧
      (failedPushes (pushTrace evs (e0, lg0)) < 2 ^ 64 →
        get_dropped_count (run evs (e0, lg0)).2 = failedPushes (pushTrace evs (e0, lg0)) ∧
        get_dropped_count (run evs (e0, lg0)).2 +
          (enqueued (pushTrace evs (e0, lg0))).length = logCalls evs)) := by
  constructor
  · intro uninit now message lg
    cases hp : (RingBuffer.try_push Capacity (buildEntry uninit now message)
        lg.ring_buffer_).1
    · have hfull := try_push_refused Capacity (buildEntry uninit now message)
        lg.ring_buffer_ hp
      simp [log, hp, hfull]
    · simp [log, hp]
  · intro buffer_size init lg0 e0 evs h
    have hlg : lg0.dropped_count_ = 0 := by
      simp only [new, Bool.not_true, Bool.false_eq_true, if_false, Except.ok.injEq] at h
      rw [← h]
    have hsum := failed_add_enqueued (pushTrace evs (e0, lg0))
    rw [pushTrace_length] at hsum
    have hd := run_dropped evs (e0, lg0) (by rw [hlg]; decide)
    rw [hlg, Nat.zero_add] at hd
    refine ⟨hsum, hd, fun hlt => ?_⟩
    have hd2 : get_dropped_count (run evs (e0, lg0)).2 =
        failedPushes (pushTrace evs (e0, lg0)) := by
      unfold get_dropped_count
      rw [hd]; exact Nat.mod_eq_of_lt hlt
    exact ⟨hd2, by rw [hd2]; exact hsum⟩

/-- C10: drain on shutdown.  After any sequence of `log` calls and worker passes
on a freshly constructed logger, the destructor's drain loop ends: it runs out
of any bound not above the number of buffered entries and ends within every
larger one, so it makes exactly one successful `try_pop` per buffered entry.
It leaves the ring buffer empty, it appends to the sink the records of the
buffered entries, oldest first, and the sink is then the list of the formatted
entries of the `log` calls whose push succeeded, in call order. -/
theorem drain_on_shutdown (buffer_size : Nat) (init : Nat → LogEntry) (lg0 : Logger)
    (e0 : LogEntry) (evs : List Event)
    (h : new true buffer_size init = Except.ok lg0) :
    destroy (RingBuffer.contents Capacity (run evs (e0, lg0)).2.ring_buffer_).length
      (run evs (e0, lg0)) = none ∧
    ∃ st, (∀ fuel,
        (RingBuffer.contents Capacity (run evs (e0, lg0)).2.ring_buffer_).length < fuel →
        destroy fuel (run evs (e0, lg0)) = some st) ∧
      RingBuffer.is_empty st.2.ring_buffer_ = true ∧
      (RingBuffer.try_pop Capacity st.1 st.2.ring_buffer_).1 = false ∧
      st.2.log_file_ = (run evs (e0, lg0)).2.log_file_ ++
        (RingBuffer.contents Capacity (run evs (e0, lg0)).2.ring_buffer_).map
          format_log_entry ∧
      st.2.log_file_ = (enqueued (pushTrace evs (e0, lg0))).map format_log_entry := by
  have hlg : lg0.ring_buffer_ = RingBuffer.new init ∧ lg0.log_file_ = [] := by
    simp only [new, Bool.not_true, Bool.false_eq_true, if_false, Except.ok.injEq] at h
    rw [← h]; exact ⟨rfl, rfl⟩
  have h0 : RingBuffer.Abs Capacity (e0, lg0).2.ring_buffer_ [] := by
    rw [Capacity_eq]
    show RingBuffer.Abs (2 ^ 10) lg0.ring_buffer_ []
    rw [hlg.1]; exact RingBuffer.abs_new init
  obtain ⟨q, hq, hsink⟩ := run_inv evs (e0, lg0) [] h0
  have hcont : RingBuffer.contents Capacity (run evs (e0, lg0)).2.ring_buffer_ = q :=
    hq.2.2.2.2
  obtain ⟨hn, st, hs, ha, hl, -, -⟩ := drain_inv q
    ((run evs (e0, lg0)).1, { (run evs (e0, lg0)).2 with shutdown_flag_ := true }) hq
  rw [hcont]
  refine ⟨?_, (st.1, { st.2 with background_thread_ := false }), ?_, ?_, ?_, ?_, ?_⟩
  · simp only [destroy, hn]
  · intro fuel hf
    simp only [destroy, hs fuel hf]
  · rw [Capacity_eq] at ha
    rw [RingBuffer.abs_is_empty (by decide : 10 < 64) ha]; rfl
  · show (RingBuffer.try_pop Capacity st.1 st.2.ring_buffer_).1 = false
    rw [RingBuffer.abs_pop_nil ha st.1]
  · exact hl
  · show st.2.log_file_ = _
    rw [hl]
    simp only [List.map_nil, List.append_nil] at hsink
    show (run evs (e0, lg0)).2.log_file_ ++ _ = _
    rw [hsink, hlg.2, List.nil_append]

/-- C9 witness: a logger given `buffer_size` 16, two `log` calls around one
worker pass; no push fails. -/
theorem drop_accounting_witness :
    new true 16 (fun _ => ⟨List.replicate 512 0, 0, 0⟩) =
      Except.ok ⟨RingBuffer.new (fun _ => ⟨List.replicate 512 0, 0, 0⟩), true, false, 0, []⟩ ∧
    failedPushes (pushTrace [Event.log ⟨List.replicate 512 0, 0, 0⟩ 7 [104, 105],
        Event.worker, Event.log ⟨List.replicate 512 0, 0, 0⟩ 9 [104, 111]]
      (⟨List.replicate 512 0, 0, 0⟩,
        ⟨RingBuffer.new (fun _ => ⟨List.replicate 512 0, 0, 0⟩), true, false, 0, []⟩)) <
      2 ^ 64 ∧
    get_dropped_count (run [Event.log ⟨List.replicate 512 0, 0, 0⟩ 7 [104, 105], Event.worker,
        Event.log ⟨List.replicate 512 0, 0, 0⟩ 9 [104, 111]]
      (⟨List.replicate 512 0, 0, 0⟩,
        ⟨RingBuffer.new (fun _ => ⟨List.replicate 512 0, 0, 0⟩), true, false, 0, []⟩)).2 +
      (enqueued (pushTrace [Event.log ⟨List.replicate 512 0, 0, 0⟩ 7 [104, 105], Event.worker,
        Event.log ⟨List.replicate 512 0, 0, 0⟩ 9 [104, 111]]
        (⟨List.replicate 512 0, 0, 0⟩,
          ⟨RingBuffer.new (fun _ => ⟨List.replicate 512 0, 0, 0⟩), true, false, 0, []⟩))
        ).length = 2 :=
  have h := drop_accounting.2 16 (fun _ => ⟨List.replicate 512 0, 0, 0⟩)
    ⟨RingBuffer.new (fun _ => ⟨List.replicate 512 0, 0, 0⟩), true, false, 0, []⟩
    ⟨List.replicate 512 0, 0, 0⟩
    [Event.log ⟨List.replicate 512 0, 0, 0⟩ 7 [104, 105], Event.worker,
      Event.log ⟨List.replicate 512 0, 0, 0⟩ 9 [104, 111]] rfl
  have hsum : failedPushes (pushTrace [Event.log ⟨List.replicate 512 0, 0, 0⟩ 7 [104, 105],
        Event.worker, Event.log ⟨List.replicate 512 0, 0, 0⟩ 9 [104, 111]]
      (⟨List.replicate 512 0, 0, 0⟩,
        ⟨RingBuffer.new (fun _ => ⟨List.replicate 512 0, 0, 0⟩), true, false, 0, []⟩)) +
      (enqueued (pushTrace [Event.log ⟨List.replicate 512 0, 0, 0⟩ 7 [104, 105],
        Event.worker, Event.log ⟨List.replicate 512 0, 0, 0⟩ 9 [104, 111]]
        (⟨List.replicate 512 0, 0, 0⟩,
          ⟨RingBuffer.new (fun _ => ⟨List.replicate 512 0, 0, 0⟩), true, false, 0, []⟩))
        ).length = 2 := h.1
  have hlt : failedPushes (pushTrace [Event.log ⟨List.replicate 512 0, 0, 0⟩ 7 [104, 105],
        Event.worker, Event.log ⟨List.replicate 512 0, 0, 0⟩ 9 [104, 111]]
      (⟨List.replicate 512 0, 0, 0⟩,
        ⟨RingBuffer.new (fun _ => ⟨List.replicate 512 0, 0, 0⟩), true, false, 0, []⟩)) <
      2 ^ 64 := by omega
  ⟨rfl, hlt, (h.2.2 hlt).2⟩

/-- C10 witness: two `log` calls and one worker pass, then the destructor; the
sink ends with the records `[7] hi` and `[9] ho`. -/
theorem drain_on_shutdown_witness :
    new true 16 (fun _ => ⟨List.replicate 512 0, 0, 0⟩) =
      Except.ok ⟨RingBuffer.new (fun _ => ⟨List.replicate 512 0, 0, 0⟩), true, false, 0, []⟩ ∧
    ∃ st, (∀ fuel,
        (RingBuffer.contents Capacity (run [Event.log ⟨List.replicate 512 0, 0, 0⟩ 7 [104, 105], Event.worker,
          Event.log ⟨List.replicate 512 0, 0, 0⟩ 9 [104, 111]]
          (⟨List.replicate 512 0, 0, 0⟩, ⟨RingBuffer.new (fun _ => ⟨List.replicate 512 0, 0, 0⟩), true, false, 0, []⟩)
          ).2.ring_buffer_).length < fuel →
        destroy fuel (run [Event.log ⟨List.replicate 512 0, 0, 0⟩ 7 [104, 105], Event.worker,
          Event.log ⟨List.replicate 512 0, 0, 0⟩ 9 [104, 111]]
          (⟨List.replicate 512 0, 0, 0⟩, ⟨RingBuffer.new (fun _ => ⟨List.replicate 512 0, 0, 0⟩), true, false, 0, []⟩)) =
          some st) ∧
      st.2.log_file_ = [[91, 55, 93, 32, 104, 105], [91, 57, 93, 32, 104, 111]] :=
  ⟨rfl,
    (drain_on_shutdown 16 (fun _ => ⟨List.replicate 512 0, 0, 0⟩)
      ⟨RingBuffer.new (fun _ => ⟨List.replicate 512 0, 0, 0⟩), true, false, 0, []⟩ ⟨List.replicate 512 0, 0, 0⟩
      [Event.log ⟨List.replicate 512 0, 0, 0⟩ 7 [104, 105], Event.worker, Event.log ⟨List.replicate 512 0, 0, 0⟩ 9 [104, 111]]
      rfl).2.imp (fun _ hst => ⟨hst.1, hst.2.2.2.2.trans (by decide)⟩)⟩

theorem buildEntry_message_length (uninit : LogEntry) (now : Nat) (message : List Nat)
    (hu : uninit.message.length = 512) :
    (buildEntry uninit now message).message.length = 512 := by
  simp only [buildEntry, messageSize, List.length_set, List.length_append, List.length_take,
    List.length_drop, hu]
  omega

/-- C11: message truncation.  The entry `Logger::log` builds from a message `m`
and passes to `try_push` has `length = min(|m|, 511)`; its first `length` bytes
are the first `length` bytes of `m`, whatever their values; the byte at index
`length` is 0; the indices written, `0 .. length`, are below 512, the array
keeps its 512 bytes and the bytes after index `length` are left as they were;
and `timestamp` is the clock reading of the call. -/
theorem message_truncation (uninit : LogEntry) (now : Nat) (message : List Nat)
    (lg : Logger) (hu : uninit.message.length = 512) :
    (log uninit now message lg).ring_buffer_ =
      (RingBuffer.try_push Capacity (buildEntry uninit now message) lg.ring_buffer_).2 ∧
    (buildEntry uninit now message).length = min message.length 511 ∧
    (buildEntry uninit now message).message.take (buildEntry uninit now message).length =
      message.take (buildEntry uninit now message).length ∧
    (buildEntry uninit now message).message[(buildEntry uninit now message).length]? =
      some 0 ∧
    (buildEntry uninit now message).length < 512 ∧
    (buildEntry uninit now message).message.length = 512 ∧
    (∀ i, (buildEntry uninit now message).length < i →
      (buildEntry uninit now message).message[i]? = uninit.message[i]?) ∧
    (buildEntry uninit now message).timestamp = now := by
  have hlen := buildEntry_message_length uninit now message hu
  refine ⟨?_, rfl, ?_, ?_, ?_, hlen, ?_, rfl⟩
  · cases hp : (RingBuffer.try_push Capacity (buildEntry uninit now message)
        lg.ring_buffer_).1 <;> simp [log, hp]
  · apply List.ext_getElem?
    intro i
    simp only [buildEntry, messageSize, List.getElem?_take]
    split
    · rename_i hi
      rw [List.getElem?_set_ne (by omega), List.getElem?_append_left (by
        simp only [List.length_take]; omega), List.getElem?_take, if_pos hi]
    · rfl
  · simp only [buildEntry, messageSize]
    rw [List.getElem?_set_self (by
      simp only [List.length_append, List.length_take, List.length_drop, hu]; omega)]
  · simp only [buildEntry, messageSize]; omega
  · intro i hi
    simp only [buildEntry, messageSize] at hi ⊢
    rw [List.getElem?_set_ne (by omega), List.getElem?_append_right (by
      simp only [List.length_take]; omega), List.getElem?_drop]
    congr 1
    simp only [List.length_take]; omega

theorem digitChar_toNat {d : Nat} (hd : d < 10) : (Nat.digitChar d).toNat = 48 + d := by
  interval_cases d <;> rfl

theorem toDigitsCore_eq (fuel : Nat) :
    ∀ (n : Nat) (ds : List Char), n < fuel → 0 < n →
      Nat.toDigitsCore 10 fuel n ds = (Nat.digits 10 n).reverse.map Nat.digitChar ++ ds := by
  induction fuel with
  | zero => intro n ds h; omega
  | succ fuel ih =>
    intro n ds h hn
    rw [Nat.digits_def' (by decide) hn]
    simp only [Nat.toDigitsCore]
    by_cases h0 : n / 10 = 0
    · simp [h0]
    · rw [if_neg h0, ih (n / 10) _ (by omega) (by omega)]
      simp

/-- The digits `std::to_string` produces are the decimal representation. -/
theorem toDigits_eq_decimal (n : Nat) :
    (Nat.toDigits 10 n).map Char.toNat = decimal n := by
  by_cases hn : n = 0
  · subst hn; rfl
  · rw [Nat.toDigits, toDigitsCore_eq (n + 1) n [] (by omega) (by omega)]
    simp only [decimal, if_neg hn, List.append_nil, List.map_map]
    apply List.map_congr_left
    intro d hd
    have : d < 10 := Nat.digits_lt_base (by decide) (List.mem_reverse.mp hd)
    exact digitChar_toNat this

/-- The list `decimal n` is made of ASCII digits, its value in base ten is `n`,
and it has no leading zero unless `n` is zero. -/
theorem decimal_spec (n : Nat) :
    (∀ c ∈ decimal n, 48 ≤ c ∧ c ≤ 57) ∧
    Nat.ofDigits 10 ((decimal n).reverse.map (fun c => c - 48)) = n ∧
    (n ≠ 0 → (decimal n).head? ≠ some 48) := by
  by_cases hn : n = 0
  · subst hn; simp [decimal]
  · simp only [decimal, if_neg hn]
    refine ⟨?_, ?_, ?_⟩
    · intro c hc
      simp only [List.mem_map, List.mem_reverse] at hc
      obtain ⟨d, hd, rfl⟩ := hc
      have : d < 10 := Nat.digits_lt_base (by decide) hd
      omega
    · have : (List.map (fun d => 48 + d) (Nat.digits 10 n).reverse).reverse.map
          (fun c => c - 48) = Nat.digits 10 n := by
        rw [← List.map_reverse, List.reverse_reverse, List.map_map]
        conv_rhs => rw [← List.map_id (Nat.digits 10 n)]
        apply List.map_congr_left
        intro d _
        simp
      rw [this, Nat.ofDigits_digits]
    · intro _
      have hne : Nat.digits 10 n ≠ [] := by
        intro h
        exact hn (Nat.digits_eq_nil_iff_eq_zero.mp h)
      have hlast := Nat.getLast_digit_ne_zero 10 hn
      rw [List.head?_map, List.head?_reverse, List.getLast?_eq_getLast _ hne]
      simp only [Option.map_some', ne_eq, Option.some.injEq]
      omega

theorem take_buildEntry (uninit : LogEntry) (now : Nat) (message : List Nat)
    (hm : message.length ≤ 511) :
    (buildEntry uninit now message).message.take (buildEntry uninit now message).length =
      message := by
  have hl : (buildEntry uninit now message).length = message.length := by
    simp only [buildEntry, messageSize]; omega
  rw [hl]
  apply List.ext_getElem?
  intro i
  simp only [buildEntry, messageSize, List.getElem?_take]
  split
  · rename_i hi
    rw [List.getElem?_set_ne (by omega), List.getElem?_append_left (by
      simp only [List.length_take]; omega), List.getElem?_take, if_pos (by omega)]
  · rename_i hi
    exact (List.getElem?_eq_none (by omega)).symm

theorem log_of_push_ok (uninit : LogEntry) (now : Nat) (message : List Nat) (lg : Logger)
    (h : (RingBuffer.try_push Capacity (buildEntry uninit now message)
      lg.ring_buffer_).1 = true) :
    log uninit now message lg =
      { lg with ring_buffer_ :=
        (RingBuffer.try_push Capacity (buildEntry uninit now message) lg.ring_buffer_).2 } := by
  simp only [log, h, Bool.not_true, Bool.false_eq_true, if_false]

theorem worker_of_pop_ok (st : LogEntry × Logger)
    (h : (RingBuffer.try_pop Capacity st.1 st.2.ring_buffer_).1 = true) :
    worker_iteration st =
      ((RingBuffer.try_pop Capacity st.1 st.2.ring_buffer_).2.1,
        { st.2 with
          ring_buffer_ := (RingBuffer.try_pop Capacity st.1 st.2.ring_buffer_).2.2
          log_file_ := st.2.log_file_ ++
            [format_log_entry (RingBuffer.try_pop Capacity st.1 st.2.ring_buffer_).2.1] }) := by
  simp only [worker_iteration, h, if_true]

/-- A fresh logger, one `log` call, one pass of the worker: the sink holds the
record of the entry. -/
theorem log_then_worker (buffer_size : Nat) (init : Nat → LogEntry) (lg0 : Logger)
    (e0 uninit : LogEntry) (now : Nat) (message : List Nat)
    (h : new true buffer_size init = Except.ok lg0) :
    (run [Event.log uninit now message, Event.worker] (e0, lg0)).2.log_file_ =
      [format_log_entry (buildEntry uninit now message)] := by
  have hlg : lg0.ring_buffer_ = RingBuffer.new init ∧ lg0.log_file_ = [] ∧
      lg0.shutdown_flag_ = false := by
    simp only [new, Bool.not_true, Bool.false_eq_true, if_false, Except.ok.injEq] at h
    rw [← h]; exact ⟨rfl, rfl, rfl⟩
  have h0 : RingBuffer.Abs (2 ^ 10) lg0.ring_buffer_ ([] : List LogEntry) := by
    rw [hlg.1]; exact RingBuffer.abs_new init
  have hlen : ([] : List LogEntry).length < 2 ^ 10 - 1 := by simp
  have hp := RingBuffer.abs_push_ok (by decide : 10 < 64) h0 hlen
    (buildEntry uninit now message)
  have hq := RingBuffer.abs_pop_cons (by decide : 10 < 64) hp.2 e0
  rw [← Capacity_eq] at hp hq
  have e1 := log_of_push_ok uninit now message lg0 hp.1
  have hflag : (log uninit now message lg0).shutdown_flag_ = false := by
    rw [e1]; exact hlg.2.2
  have hrb : (log uninit now message lg0).ring_buffer_ =
      (RingBuffer.try_push Capacity (buildEntry uninit now message) lg0.ring_buffer_).2 := by
    rw [e1]
  have hfile : (log uninit now message lg0).log_file_ = [] := by
    rw [e1]; exact hlg.2.1
  have hq1 : (RingBuffer.try_pop Capacity (e0, log uninit now message lg0).1
      (e0, log uninit now message lg0).2.ring_buffer_).1 = true := by
    show (RingBuffer.try_pop Capacity e0 (log uninit now message lg0).ring_buffer_).1 = true
    rw [hrb]; exact hq.1
  have e2 := worker_of_pop_ok (e0, log uninit now message lg0) hq1
  show (step Event.worker (step (Event.log uninit now message) (e0, lg0))).2.log_file_ = _
  have e3 : step (Event.log uninit now message) (e0, lg0) =
      (e0, log uninit now message lg0) := rfl
  have e4 : step Event.worker (e0, log uninit now message lg0) =
      worker_iteration (e0, log uninit now message lg0) := by
    simp only [step, hflag, Bool.false_eq_true, if_false]
  rw [e3, e4, e2]
  show (log uninit now message lg0).log_file_ ++
    [format_log_entry (RingBuffer.try_pop Capacity e0
      (log uninit now message lg0).ring_buffer_).2.1] = _
  rw [hfile, hrb, hq.2.1, List.nil_append]

/-- C12: record format.  For an entry whose `length` is at most 511,
`format_log_entry` returns `[`, the decimal representation of the timestamp,
`] ` and the first `length` bytes of the payload, unchanged and exactly
`length` of them.  Hence a message of at most 511 bytes logged at clock reading
`t` is formatted as `[t] m`, and that is the record the worker writes to the
sink. -/
theorem record_format :
    (∀ e : LogEntry, e.message.length = 512 → e.length ≤ 511 →
      format_log_entry e =
        [91] ++ decimal e.timestamp ++ [93, 32] ++ e.message.take e.length ∧
      (e.message.take e.length).length = e.length) ∧
    (∀ (uninit : LogEntry) (t : Nat) (m : List Nat), m.length ≤ 511 →
      format_log_entry (buildEntry uninit t m) = [91] ++ decimal t ++ [93, 32] ++ m ∧
      ∀ (buffer_size : Nat) (init : Nat → LogEntry) (lg0 : Logger) (e0 : LogEntry),
        new true buffer_size init = Except.ok lg0 →
        (run [Event.log uninit t m, Event.worker] (e0, lg0)).2.log_file_ =
          [[91] ++ decimal t ++ [93, 32] ++ m]) := by
  refine ⟨fun e hm hl => ⟨?_, ?_⟩, fun uninit t m hm => ?_⟩
  · simp only [format_log_entry, toDigits_eq_decimal]
  · rw [List.length_take]; omega
  · have hf : format_log_entry (buildEntry uninit t m) =
        [91] ++ decimal t ++ [93, 32] ++ m := by
      simp only [format_log_entry, toDigits_eq_decimal, take_buildEntry uninit t m hm]
      rfl
    refine ⟨hf, fun buffer_size init lg0 e0 h => ?_⟩
    rw [log_then_worker buffer_size init lg0 e0 uninit t m h, hf]

/-- C11 witness: a message of 600 bytes, the second of them 0, is cut to 511
bytes. -/
theorem message_truncation_witness :
    (List.replicate 512 7).length = 512 ∧
    min (72 :: 0 :: List.replicate 598 105).length 511 = 511 ∧
    (buildEntry ⟨List.replicate 512 7, 0, 0⟩ 1234 (72 :: 0 :: List.replicate 598 105)).length =
      min (72 :: 0 :: List.replicate 598 105).length 511 ∧
    (buildEntry ⟨List.replicate 512 7, 0, 0⟩ 1234
      (72 :: 0 :: List.replicate 598 105)).message[(buildEntry ⟨List.replicate 512 7, 0, 0⟩
        1234 (72 :: 0 :: List.replicate 598 105)).length]? = some 0 ∧
    (buildEntry ⟨List.replicate 512 7, 0, 0⟩ 1234
      (72 :: 0 :: List.replicate 598 105)).message.length = 512 ∧
    (buildEntry ⟨List.replicate 512 7, 0, 0⟩ 1234
      (72 :: 0 :: List.replicate 598 105)).timestamp = 1234 :=
  have h := message_truncation ⟨List.replicate 512 7, 0, 0⟩ 1234
    (72 :: 0 :: List.replicate 598 105)
    ⟨RingBuffer.new (fun _ => ⟨List.replicate 512 0, 0, 0⟩), true, false, 0, []⟩
    (List.length_replicate 512 7)
  ⟨List.length_replicate 512 7,
    by rw [List.length_cons, List.length_cons, List.length_replicate]; decide,
    h.2.1, h.2.2.2.1, h.2.2.2.2.2.1, h.2.2.2.2.2.2.2⟩

/-- C12 witness: the message `hi` logged at clock reading 1234 gives the record
`[1234] hi`. -/
theorem record_format_witness :
    [104, 105].length ≤ 511 ∧
    new true 16 (fun _ => ⟨List.replicate 512 0, 0, 0⟩) =
      Except.ok ⟨RingBuffer.new (fun _ => ⟨List.replicate 512 0, 0, 0⟩), true, false, 0, []⟩ ∧
    format_log_entry (buildEntry ⟨List.replicate 512 7, 0, 0⟩ 1234 [104, 105]) =
      [91, 49, 50, 51, 52, 93, 32, 104, 105] ∧
    (run [Event.log ⟨List.replicate 512 7, 0, 0⟩ 1234 [104, 105], Event.worker]
      (⟨List.replicate 512 0, 0, 0⟩,
        ⟨RingBuffer.new (fun _ => ⟨List.replicate 512 0, 0, 0⟩), true, false, 0, []⟩)
      ).2.log_file_ = [[91, 49, 50, 51, 52, 93, 32, 104, 105]] :=
  have h := record_format.2 ⟨List.replicate 512 7, 0, 0⟩ 1234 [104, 105] (by decide)
  have hd : [91] ++ decimal 1234 ++ [93, 32] ++ [104, 105] =
      [91, 49, 50, 51, 52, 93, 32, 104, 105] := by
    simp [decimal]
  ⟨by decide, rfl, h.1.trans hd,
    (h.2 16 (fun _ => ⟨List.replicate 512 0, 0, 0⟩)
      ⟨RingBuffer.new (fun _ => ⟨List.replicate 512 0, 0, 0⟩), true, false, 0, []⟩
      ⟨List.replicate 512 0, 0, 0⟩ rfl).trans (by rw [hd])⟩

end Logger

/-! ### Invariants and queries of the sequential ring buffer -/

namespace RingBuffer

variable {T : Type}

/-- What one call does to the counters, in any state: each of them is left as it
is or advanced by one as a `size_t`. -/
theorem call_counters (C : Nat) (d : T) (op : Op T) (rb : RingBuffer T) :
    ((call C d op rb).2.head_ = rb.head_ ∨
      (call C d op rb).2.head_ = (rb.head_ + 1) % 2 ^ 64) ∧
    ((call C d op rb).2.tail_ = rb.tail_ ∨
      (call C d op rb).2.tail_ = (rb.tail_ + 1) % 2 ^ 64) := by
  cases op with
  | push item =>
    by_cases h : subSize rb.head_ rb.tail_ &&& mask C = mask C
    · simp [call, try_push, h]
    · simp [call, try_push, h, addSize, sizeMod]
  | pop =>
    by_cases h : rb.tail_ = rb.head_
    · simp [call, try_pop, h]
    · simp [call, try_pop, h, addSize, sizeMod]

/-- One push and one pop on an empty buffer of capacity 8 advance both counters
by one. -/
theorem cycle_counters (d x : T) (rb : RingBuffer T) (he : rb.head_ = rb.tail_) :
    (runCalls 8 d [Op.push x, Op.pop] rb).2.head_ = (rb.head_ + 1) % sizeMod ∧
    (runCalls 8 d [Op.push x, Op.pop] rb).2.tail_ = (rb.head_ + 1) % sizeMod := by
  have h0 : subSize rb.head_ rb.tail_ = 0 := by
    rw [← he]; unfold subSize sizeMod at *; omega
  have h1 : ¬ (subSize rb.head_ rb.tail_ &&& mask 8 = mask 8) := by
    rw [h0]; decide
  have h2 : ¬ (rb.tail_ = addSize rb.head_ 1) := by
    rw [← he]; unfold addSize sizeMod at *; omega
  simp only [runCalls, call, try_push, if_neg h1, try_pop, if_neg h2]
  rw [← he]
  exact ⟨rfl, rfl⟩

theorem runCalls_pushPopCycles (d x : T) (n : Nat) :
    ∀ rb : RingBuffer T, rb.head_ = rb.tail_ → rb.head_ < sizeMod →
      (runCalls 8 d (pushPopCycles x n) rb).2.head_ = (rb.head_ + n) % sizeMod ∧
      (runCalls 8 d (pushPopCycles x n) rb).2.tail_ = (rb.head_ + n) % sizeMod := by
  induction n with
  | zero =>
    intro rb he hw
    rw [Nat.add_zero, Nat.mod_eq_of_lt hw]
    exact ⟨rfl, he.symm⟩
  | succ n ih =>
    intro rb he hw
    have hc := cycle_counters d x rb he
    have hstep : (runCalls 8 d (pushPopCycles x (n + 1)) rb).2 =
        (runCalls 8 d (pushPopCycles x n) (runCalls 8 d [Op.push x, Op.pop] rb).2).2 := by
      simp only [pushPopCycles, runCalls]
    have hpos : 0 < sizeMod := by unfold sizeMod; decide
    rw [hstep]
    have := ih (runCalls 8 d [Op.push x, Op.pop] rb).2 (hc.1.trans hc.2.symm)
      (by rw [hc.1]; exact Nat.mod_lt _ hpos)
    rw [this.1, this.2, hc.1, Nat.mod_add_mod, Nat.add_assoc, Nat.add_comm 1 n]
    exact ⟨rfl, rfl⟩

theorem push_on_empty (d x : T) (rb : RingBuffer T) (he : rb.head_ = rb.tail_) :
    (call 8 d (Op.push x) rb).1 = Ret.push true ∧
    (call 8 d (Op.push x) rb).2.head_ = (rb.head_ + 1) % sizeMod := by
  have h0 : subSize rb.head_ rb.tail_ = 0 := by
    rw [← he]; unfold subSize sizeMod at *; omega
  have h1 : ¬ (subSize rb.head_ rb.tail_ &&& mask 8 = mask 8) := by
    rw [h0]; decide
  simp only [call, try_push, if_neg h1]
  exact ⟨trivial, rfl⟩

/-- C13 counterexample: on a fresh buffer of capacity 8, after `2 ^ 64 - 1`
push/pop pairs `head_` is `2 ^ 64 - 1`; the next `try_push` returns true and
leaves `head_` at 0, below its previous value. -/
theorem head_decreases_at_wrap :
    (runCalls 8 0 (pushPopCycles 0 18446744073709551615)
      (new (fun _ => (0 : Nat)))).2.head_ = 18446744073709551615 ∧
    (call 8 0 (Op.push 0) (runCalls 8 0 (pushPopCycles 0 18446744073709551615)
      (new (fun _ => (0 : Nat)))).2).1 = Ret.push true ∧
    (call 8 0 (Op.push 0) (runCalls 8 0 (pushPopCycles 0 18446744073709551615)
      (new (fun _ => (0 : Nat)))).2).2.head_ <
      (runCalls 8 0 (pushPopCycles 0 18446744073709551615)
        (new (fun _ => (0 : Nat)))).2.head_ := by
  have h := runCalls_pushPopCycles (0 : Nat) 0 18446744073709551615
    (new (fun _ => (0 : Nat))) rfl (by decide)
  have e : ((new (fun _ => (0 : Nat))).head_ + 18446744073709551615) % sizeMod =
      18446744073709551615 := by decide
  rw [e] at h
  have hp := push_on_empty (0 : Nat) 0 _ (h.1.trans h.2.symm)
  refine ⟨h.1, hp.1, ?_⟩
  rw [hp.2, h.1]
  decide

/-- C13, amended: in every state reached from a freshly constructed buffer of
power-of-two capacity, `0 <= head - tail <= Capacity` as an unsigned
difference (it is at most `Capacity - 1`), and each `try_push` or `try_pop`
leaves each of `head_`, `tail_` as it is or advances it by one modulo `2 ^ 64`:
it does not decrease a counter that is below `2 ^ 64 - 1`. -/
theorem occupancy_invariant (Capacity : Nat) (hC : IsPow2Capacity Capacity) (d : T)
    (init : Nat → T) (ops : List (Op T)) (op : Op T) :
    subSize (runCalls Capacity d ops (new init)).2.head_
      (runCalls Capacity d ops (new init)).2.tail_ ≤ Capacity ∧
    subSize (runCalls Capacity d ops (new init)).2.head_
      (runCalls Capacity d ops (new init)).2.tail_ ≤ Capacity - 1 ∧
    ((call Capacity d op (runCalls Capacity d ops (new init)).2).2.head_ =
        (runCalls Capacity d ops (new init)).2.head_ ∨
      (call Capacity d op (runCalls Capacity d ops (new init)).2).2.head_ =
        ((runCalls Capacity d ops (new init)).2.head_ + 1) % 2 ^ 64) ∧
    ((call Capacity d op (runCalls Capacity d ops (new init)).2).2.tail_ =
        (runCalls Capacity d ops (new init)).2.tail_ ∨
      (call Capacity d op (runCalls Capacity d ops (new init)).2).2.tail_ =
        ((runCalls Capacity d ops (new init)).2.tail_ + 1) % 2 ^ 64) ∧
    ((runCalls Capacity d ops (new init)).2.head_ + 1 < 2 ^ 64 →
      (runCalls Capacity d ops (new init)).2.head_ ≤
        (call Capacity d op (runCalls Capacity d ops (new init)).2).2.head_) ∧
    ((runCalls Capacity d ops (new init)).2.tail_ + 1 < 2 ^ 64 →
      (runCalls Capacity d ops (new init)).2.tail_ ≤
        (call Capacity d op (runCalls Capacity d ops (new init)).2).2.tail_) := by
  obtain ⟨k, hk, rfl⟩ := hC
  have ho := runCalls_refines hk d ops (new init) [] (abs_new init)
  have hd := ho.2.distance (Nat.le_of_lt (pow_lt_sizeMod hk))
  have hl := QueueSpec.run_length (2 ^ k) ops ([] : List T) (Nat.zero_le _)
  have hc := call_counters (2 ^ k) d op (runCalls (2 ^ k) d ops (new init)).2
  have hpos : 0 < 2 ^ k := Nat.pow_pos (by decide)
  refine ⟨by rw [hd]; omega, by rw [hd]; exact hl, hc.1, hc.2, fun hlt => ?_, fun hlt => ?_⟩
  · rcases hc.1 with h | h
    · rw [h]
    · rw [h, Nat.mod_eq_of_lt hlt]; omega
  · rcases hc.2 with h | h
    · rw [h]
    · rw [h, Nat.mod_eq_of_lt hlt]; omega

/-- C13 witness: capacity 8, two pushes and a pop, then one more push. -/
theorem occupancy_invariant_witness :
    IsPow2Capacity 8 ∧
    subSize (runCalls 8 0 [Op.push 1, Op.push 2, Op.pop] (new (fun _ => (0 : Nat)))).2.head_
      (runCalls 8 0 [Op.push 1, Op.push 2, Op.pop] (new (fun _ => (0 : Nat)))).2.tail_ ≤ 8 ∧
    (runCalls 8 0 [Op.push 1, Op.push 2, Op.pop] (new (fun _ => (0 : Nat)))).2.head_ ≤
      (call 8 0 (Op.push 3)
        (runCalls 8 0 [Op.push 1, Op.push 2, Op.pop] (new (fun _ => (0 : Nat)))).2).2.head_ :=
  have h := occupancy_invariant 8 ⟨3, by decide, rfl⟩ (0 : Nat) (fun _ => 0)
    [Op.push 1, Op.push 2, Op.pop] (Op.push 3)
  ⟨⟨3, by decide, rfl⟩, h.1, h.2.2.2.2.1 (by decide)⟩

/-- C14 counterexample: a buffer of capacity 8 after seven pushes is full,
`is_full()` is true and `try_push` is refused, while `head - tail` is 7, not
8. -/
theorem full_below_capacity :
    is_full 8 (runCalls 8 0 ([0, 1, 2, 3, 4, 5, 6].map Op.push)
      (new (fun _ => (0 : Nat)))).2 = true ∧
    (try_push 8 999 (runCalls 8 0 ([0, 1, 2, 3, 4, 5, 6].map Op.push)
      (new (fun _ => (0 : Nat)))).2).1 = false ∧
    subSize (runCalls 8 0 ([0, 1, 2, 3, 4, 5, 6].map Op.push)
        (new (fun _ => (0 : Nat)))).2.head_
      (runCalls 8 0 ([0, 1, 2, 3, 4, 5, 6].map Op.push)
        (new (fun _ => (0 : Nat)))).2.tail_ ≠ 8 := by
  decide

/-- C14, amended: in every state reached from a freshly constructed buffer of
power-of-two capacity, the buffer is full (`is_full()` returns true, and
`try_push` is refused) iff `head - tail == Capacity - 1`; the difference never
equals `Capacity`. -/
theorem full_condition (Capacity : Nat) (hC : IsPow2Capacity Capacity) (d : T)
    (init : Nat → T) (ops : List (Op T)) (x : T) :
    (is_full Capacity (runCalls Capacity d ops (new init)).2 = true ↔
      subSize (runCalls Capacity d ops (new init)).2.head_
        (runCalls Capacity d ops (new init)).2.tail_ = Capacity - 1) ∧
    ((try_push Capacity x (runCalls Capacity d ops (new init)).2).1 = false ↔
      subSize (runCalls Capacity d ops (new init)).2.head_
        (runCalls Capacity d ops (new init)).2.tail_ = Capacity - 1) ∧
    subSize (runCalls Capacity d ops (new init)).2.head_
      (runCalls Capacity d ops (new init)).2.tail_ ≠ Capacity := by
  obtain ⟨k, hk, rfl⟩ := hC
  have ho := runCalls_refines hk d ops (new init) [] (abs_new init)
  have hd := ho.2.distance (Nat.le_of_lt (pow_lt_sizeMod hk))
  have hlen : (QueueSpec.run (2 ^ k) ops ([] : List T)).2.length < 2 ^ k := ho.2.2.2.1
  rw [hd]
  refine ⟨?_, ?_, by omega⟩
  · rw [abs_is_full hk ho.2]
    simp
  · by_cases hq : (QueueSpec.run (2 ^ k) ops ([] : List T)).2.length < 2 ^ k - 1
    · have hp := abs_push_ok hk ho.2 hq x
      rw [hp.1]
      constructor
      · intro h; cases h
      · intro h; omega
    · have hp := abs_push_full hk ho.2 hq x
      rw [hp]
      constructor
      · intro _; omega
      · intro _; rfl

/-- C14 witness: capacity 8 after seven pushes. -/
theorem full_condition_witness :
    IsPow2Capacity 8 ∧
    (is_full 8 (runCalls 8 0 ([0, 1, 2, 3, 4, 5, 6].map Op.push)
        (new (fun _ => (0 : Nat)))).2 = true ↔
      subSize (runCalls 8 0 ([0, 1, 2, 3, 4, 5, 6].map Op.push)
          (new (fun _ => (0 : Nat)))).2.head_
        (runCalls 8 0 ([0, 1, 2, 3, 4, 5, 6].map Op.push)
          (new (fun _ => (0 : Nat)))).2.tail_ = 7) :=
  ⟨⟨3, by decide, rfl⟩,
    (full_condition 8 ⟨3, by decide, rfl⟩ (0 : Nat) (fun _ => 0)
      ([0, 1, 2, 3, 4, 5, 6].map Op.push) 999).1⟩

theorem testBit_of_between {x k : Nat} (h1 : 2 ^ k ≤ x) (h2 : x < 2 ^ (k + 1)) :
    x.testBit k = true := by
  rw [Nat.testBit_to_div_mod]
  have : x / 2 ^ k = 1 := Nat.div_eq_of_lt_le (by omega) (by rw [Nat.pow_succ] at h2; omega)
  simp [this]

/-- The bit trick of the `static_assert`, on positive numbers. -/
theorem and_pred_eq_zero_iff {n : Nat} (hn : 0 < n) :
    n &&& (n - 1) = 0 ↔ ∃ k, n = 2 ^ k := by
  constructor
  · intro h
    refine ⟨Nat.log 2 n, ?_⟩
    have h1 : 2 ^ Nat.log 2 n ≤ n := Nat.pow_log_le_self 2 (by omega)
    have h2 : n < 2 ^ (Nat.log 2 n + 1) := Nat.lt_pow_succ_log_self (by decide) n
    by_contra hne
    have hb1 := testBit_of_between h1 h2
    have hb2 := testBit_of_between (x := n - 1) (k := Nat.log 2 n) (by omega) (by omega)
    have hb : (n &&& (n - 1)).testBit (Nat.log 2 n) = true := by
      rw [Nat.testBit_and, hb1, hb2]; rfl
    rw [h, Nat.zero_testBit] at hb
    cases hb
  · rintro ⟨k, rfl⟩
    rw [Nat.and_pow_two_sub_one_eq_mod, Nat.mod_self]

/-- What the `static_assert` accepts among the `size_t` values: zero and the
powers of two. -/
theorem capacityCheck_iff (C : Nat) (hC : C < 2 ^ 64) :
    capacityCheck C = true ↔ C = 0 ∨ IsPow2Capacity C := by
  by_cases h0 : C = 0
  · subst h0; simp [capacityCheck]
  · have hs : subSize C 1 = C - 1 := by
      unfold subSize sizeMod; omega
    simp only [capacityCheck, hs, beq_iff_eq, h0, false_or]
    rw [and_pred_eq_zero_iff (by omega)]
    constructor
    · rintro ⟨k, rfl⟩
      exact ⟨k, (Nat.pow_lt_pow_iff_right (by decide)).mp hC, rfl⟩
    · rintro ⟨k, _, rfl⟩
      exact ⟨k, rfl⟩

/-- C15: the check of the `static_assert`, `(Capacity & (Capacity - 1)) == 0`,
passes for `Capacity = 0`, which is not a power of two. -/
theorem capacity_check_accepts_zero :
    capacityCheck 0 = true ∧ ¬ IsPow2Capacity 0 := by
  refine ⟨by decide, ?_⟩
  rintro ⟨k, _, h⟩
  have := Nat.pow_pos (n := k) (by decide : 0 < 2)
  omega

/-- C20: snapshot queries.  In every state and for every capacity, `is_full()`
returns true iff a `try_push` made right after it returns false, and
`is_empty()` returns true iff a `try_pop` made right after it returns false;
both are `const` and return only their boolean.  A freshly constructed buffer
is empty, and it is not full when its capacity is at least 2. -/
theorem snapshot_queries (Capacity : Nat) (rb : RingBuffer T) (x d : T) (init : Nat → T) :
    (is_full Capacity rb = true ↔ (try_push Capacity x rb).1 = false) ∧
    (is_empty rb = true ↔ (try_pop Capacity d rb).1 = false) ∧
    is_empty (new init) = true ∧
    (2 ≤ Capacity → Capacity < 2 ^ 64 → is_full Capacity (new init) = false) := by
  refine ⟨?_, ?_, rfl, fun h2 hlt => ?_⟩
  · by_cases h : subSize rb.head_ rb.tail_ &&& mask Capacity = mask Capacity
    · simp [is_full, try_push, h]
    · simp [is_full, try_push, h]
  · by_cases h : rb.tail_ = rb.head_
    · simp [is_empty, try_pop, h]
    · have h3 : ¬ rb.head_ = rb.tail_ := fun e => h e.symm
      simp [is_empty, try_pop, h, h3]
  · have hm : mask Capacity = Capacity - 1 := by
      unfold mask subSize sizeMod; omega
    have hs : subSize (new init).head_ (new init).tail_ = 0 := by
      simp [new, subSize]
    simp only [is_full, hs, hm, Nat.zero_and]
    simp only [beq_eq_false_iff_ne, ne_eq]
    omega

/-- C20 witness: capacity 8, a buffer holding seven items, and a fresh one. -/
theorem snapshot_queries_witness :
    (2 : Nat) ≤ 8 ∧ (8 : Nat) < 2 ^ 64 ∧
    (is_full 8 (⟨7, 0, fun i => i⟩ : RingBuffer Nat) = true ↔
      (try_push 8 999 (⟨7, 0, fun i => i⟩ : RingBuffer Nat)).1 = false) ∧
    is_full 8 (new (fun _ => (0 : Nat))) = false :=
  have h := snapshot_queries 8 (⟨7, 0, fun i => i⟩ : RingBuffer Nat) 999 0 (fun _ => 0)
  ⟨by decide, by decide, h.1, h.2.2.2 (by decide) (by decide)⟩

end RingBuffer

/-! ### Construction of the logger -/

namespace Logger

set_option maxRecDepth 100000 in
/-- C16 counterexample: with a sink that opens, a logger is constructed for
`buffer_size` 1000, which is not a power of two; and a logger constructed with
`buffer_size` 16 takes 16 entries without dropping one and holds them all,
which a ring buffer of capacity 16 cannot. -/
theorem buffer_size_not_validated :
    ¬ RingBuffer.IsPow2Capacity 1000 ∧
    new true 1000 (fun _ => ⟨List.replicate 512 0, 0, 0⟩) =
      Except.ok ⟨RingBuffer.new (fun _ => ⟨List.replicate 512 0, 0, 0⟩), true, false, 0, []⟩ ∧
    new true 16 (fun _ => ⟨List.replicate 512 0, 0, 0⟩) =
      Except.ok ⟨RingBuffer.new (fun _ => ⟨List.replicate 512 0, 0, 0⟩), true, false, 0, []⟩ ∧
    get_dropped_count (run (List.replicate 16 (Event.log ⟨List.replicate 512 0, 0, 0⟩ 1 [104]))
      (⟨List.replicate 512 0, 0, 0⟩,
        ⟨RingBuffer.new (fun _ => ⟨List.replicate 512 0, 0, 0⟩), true, false, 0, []⟩)).2 = 0 ∧
    (RingBuffer.contents Capacity
      (run (List.replicate 16 (Event.log ⟨List.replicate 512 0, 0, 0⟩ 1 [104]))
        (⟨List.replicate 512 0, 0, 0⟩,
          ⟨RingBuffer.new (fun _ => ⟨List.replicate 512 0, 0, 0⟩), true, false, 0, []⟩)
        ).2.ring_buffer_).length = 16 := by
  refine ⟨?_, rfl, rfl, by decide, by decide⟩
  unfold RingBuffer.IsPow2Capacity
  decide

/-- C16, amended: for every sink that opens, constructing a logger succeeds for
every `buffer_size`, power of two or not, and gives the same logger; its ring
buffer has the fixed capacity 1024, the one `log` and the worker use. -/
theorem logger_capacity_fixed (buffer_size : Nat) (init : Nat → LogEntry) :
    new true buffer_size init =
      Except.ok ⟨RingBuffer.new init, true, false, 0, []⟩ ∧
    new true buffer_size init = new true 1024 init ∧
    Capacity = 1024 ∧
    (∀ (uninit : LogEntry) (now : Nat) (message : List Nat) (lg : Logger),
      (log uninit now message lg).ring_buffer_ =
        (RingBuffer.try_push 1024 (buildEntry uninit now message) lg.ring_buffer_).2) ∧
    (∀ st : LogEntry × Logger, (worker_iteration st).2.ring_buffer_ =
      (RingBuffer.try_pop 1024 st.1 st.2.ring_buffer_).2.2) := by
  refine ⟨rfl, rfl, rfl, fun uninit now message lg => ?_, fun st => ?_⟩
  · show _ = (RingBuffer.try_push Capacity (buildEntry uninit now message) lg.ring_buffer_).2
    cases hp : (RingBuffer.try_push Capacity (buildEntry uninit now message)
        lg.ring_buffer_).1 <;> simp [log, hp]
  · show _ = (RingBuffer.try_pop Capacity st.1 st.2.ring_buffer_).2.2
    cases hp : (RingBuffer.try_pop Capacity st.1 st.2.ring_buffer_).1 <;>
      simp [worker_iteration, hp]

/-- C19: sink failure at construction.  The constructor throws iff the sink
fails to open.  When it throws, the body is left before the worker thread is
started; when it returns, the thread is started, the drop counter is zero and
the shutdown flag is false. -/
theorem sink_failure_at_construction (opens : Bool) (buffer_size : Nat)
    (init : Nat → LogEntry) :
    ((∃ msg, new opens buffer_size init = Except.error msg) ↔ opens = false) ∧
    ((construct opens buffer_size init).2 = true ↔
      ∃ msg, new opens buffer_size init = Except.error msg) ∧
    ((construct opens buffer_size init).2 = true →
      (construct opens buffer_size init).1.background_thread_ = false) ∧
    (∀ lg, new opens buffer_size init = Except.ok lg →
      (construct opens buffer_size init) = (lg, false) ∧
      lg.background_thread_ = true ∧ lg.dropped_count_ = 0 ∧ lg.shutdown_flag_ = false) := by
  cases opens
  · refine ⟨by simp [new], by simp [new, construct], by simp [construct], ?_⟩
    intro lg h
    simp [new] at h
  · refine ⟨by simp [new], by simp [new, construct], by simp [construct], ?_⟩
    intro lg h
    simp only [new, Bool.not_true, Bool.false_eq_true, if_false, Except.ok.injEq] at h
    subst h
    simp [construct]

/-- C19 witness: a sink that fails to open, and one that opens. -/
theorem sink_failure_at_construction_witness :
    (∃ msg, new false 1024 (fun _ => ⟨List.replicate 512 0, 0, 0⟩) = Except.error msg) ∧
    (construct false 1024 (fun _ => ⟨List.replicate 512 0, 0, 0⟩)).1.background_thread_ =
      false ∧
    new true 1024 (fun _ => ⟨List.replicate 512 0, 0, 0⟩) =
      Except.ok ⟨RingBuffer.new (fun _ => ⟨List.replicate 512 0, 0, 0⟩), true, false, 0, []⟩ ∧
    (⟨RingBuffer.new (fun _ => ⟨List.replicate 512 0, 0, 0⟩), true, false, 0, []⟩ :
      Logger).dropped_count_ = 0 :=
  have hf := sink_failure_at_construction false 1024 (fun _ => ⟨List.replicate 512 0, 0, 0⟩)
  have ht := sink_failure_at_construction true 1024 (fun _ => ⟨List.replicate 512 0, 0, 0⟩)
  ⟨hf.1.mpr rfl, hf.2.2.1 (hf.2.1.mpr (hf.1.mpr rfl)), rfl, (ht.2.2.2 _ rfl).2.2.1⟩

end Logger

/-! ### Order of the accesses in `try_push` and `try_pop` -/

namespace Conc

variable {T : Type}

theorem lastInv_step {C : Nat} (hC : Pow2 C) (m : Move T) {s s1 : State T} (h : Inv C s)
    (hl : lastInv C s) (hs : step C m s = some s1) : lastInv C s1 := by
  obtain ⟨rb, pr, co, pushed, popped⟩ := s
  have h1 := h.head_eq
  have h3 := h.tail_le
  have h7 := h.producer
  dsimp only at h1 h3
  simp only [sizeMod] at h1
  unfold lastInv at hl ⊢
  dsimp only at hl
  cases m with
  | callPush item =>
    cases pr <;> simp only [step, Option.some.injEq, reduceCtorEq] at hs
    subst hs; exact hl
  | callPop =>
    cases co <;> simp only [step, Option.some.injEq, reduceCtorEq] at hs
    subst hs; exact hl
  | consumer =>
    cases co with
    | idle => simp [step] at hs
    | loadTail =>
      simp only [step, Option.some.injEq] at hs
      subst hs; exact hl
    | loadHead t =>
      simp only [step] at hs
      split at hs <;> (simp only [Option.some.injEq] at hs; subst hs; exact hl)
    | fetchAdd =>
      simp only [step, Option.some.injEq] at hs
      subst hs; exact hl
    | readSlot t =>
      simp only [step, Option.some.injEq] at hs
      subst hs; exact hl
  | producer =>
    cases pr with
    | idle => simp [step] at hs
    | loadHead item =>
      simp only [step, Option.some.injEq] at hs
      subst hs; exact hl
    | loadTail item t =>
      simp only [step] at hs
      split at hs <;> (simp only [Option.some.injEq] at hs; subst hs; exact hl)
    | writeSlot item cur_head =>
      simp only [producerInv] at h7
      simp only [step, Option.some.injEq] at hs
      subst hs
      have hidx : cur_head &&& RingBuffer.mask C = pushed.length % C := by
        rw [hC.and_mask, h7.1]
        show rb.head_ % C = _
        rw [h1, hC.mod_mod]
      intro i hi
      dsimp only at hi ⊢
      have hne : i % C ≠ pushed.length % C := mod_ne_of_lt (by omega) (by
        have := h7.2
        have hcl : claimed co ≤ 1 := by cases co <;> simp [claimed]
        omega)
      rw [hl i hi]
      simp [RingBuffer.setSlot, hidx, hne]
    | storeHead item cur_head =>
      simp only [producerInv] at h7
      simp only [step, Option.some.injEq] at hs
      subst hs
      intro i hi
      simp only [List.length_append, List.length_singleton] at hi
      have : i = pushed.length := by omega
      subst this
      show (pushed ++ [item])[pushed.length]? = some (rb.buffer_ (pushed.length % C))
      rw [List.getElem?_append_right (Nat.le_refl _)]
      simp [h7.2.2]

/-- Both invariants hold in every state a schedule reaches from the initial
state. -/
theorem inv_last_exec {C : Nat} (hC : Pow2 C) (ms : List (Move T)) :
    ∀ {s s1 : State T}, Inv C s → lastInv C s → exec C ms s = some s1 →
      Inv C s1 ∧ lastInv C s1 := by
  induction ms with
  | nil =>
    intro s s1 h hl hs
    simp only [exec, Option.some.injEq] at hs
    exact hs ▸ ⟨h, hl⟩
  | cons m ms ih =>
    intro s s1 h hl hs
    simp only [exec] at hs
    cases hm : step C m s with
    | none => simp [hm] at hs
    | some s2 =>
      rw [hm] at hs
      exact ih (inv_step hC m h hm) (lastInv_step hC m h hl hm) hs

theorem lastInv_init (C : Nat) (slots : Nat → T) : lastInv C (init slots) := by
  intro h hh
  simp [init] at hh

/-- C17: publication ordering of `try_push`.  In every state an interleaving of
one producer and one consumer reaches: `head_` is the number of completed
pushes; until the producer's store `head_` still holds `cur_head`, and at the
store the slot `cur_head & mask` already holds the item; whenever `head_` shows
the value `h + 1`, slot `h & mask` holds the item pushed at counter `h`; every
slot between the values popped and `head_` holds the item pushed there; and the
slot the consumer is about to read holds the item pushed at its counter. -/
theorem publication_order (Capacity : Nat) (hC : RingBuffer.IsPow2Capacity Capacity)
    (slots : Nat → T) (ms : List (Move T)) (s : State T)
    (h : exec Capacity ms (init slots) = some s) :
    s.rb.head_ = s.pushed.length % 2 ^ 64 ∧
    (∀ item cur_head, s.producer = Producer.writeSlot item cur_head →
      s.rb.head_ = cur_head) ∧
    (∀ item cur_head, s.producer = Producer.storeHead item cur_head →
      s.rb.head_ = cur_head ∧
      s.rb.buffer_ (cur_head &&& RingBuffer.mask Capacity) = item) ∧
    (∀ x, s.pushed.getLast? = some x →
      s.rb.buffer_ (subSize s.rb.head_ 1 &&& RingBuffer.mask Capacity) = x) ∧
    (∀ i, s.popped.length ≤ i → i < s.pushed.length →
      s.pushed[i]? = some (s.rb.buffer_ (i % 2 ^ 64 &&& RingBuffer.mask Capacity))) ∧
    (∀ cur_tail, s.consumer = Consumer.readSlot cur_tail →
      s.pushed[s.popped.length]? =
        some (s.rb.buffer_ (cur_tail &&& RingBuffer.mask Capacity))) := by
  obtain ⟨k, hk, rfl⟩ := hC
  have hP := pow2_of hk
  obtain ⟨hinv, hlast⟩ := inv_last_exec hP ms (inv_init hP slots) (lastInv_init _ slots) h
  have hhead : s.rb.head_ = s.pushed.length % 2 ^ 64 := hinv.head_eq
  refine ⟨hhead, ?_, ?_, ?_, ?_, ?_⟩
  · intro item cur_head hp
    have h7 := hinv.producer
    simp only [producerInv, hp] at h7
    exact h7.1.symm
  · intro item cur_head hp
    have h7 := hinv.producer
    simp only [producerInv, hp] at h7
    refine ⟨h7.1.symm, ?_⟩
    rw [hP.and_mask, h7.1, hhead, hP.mod_mod]
    exact h7.2.2
  · intro x hx
    have hne : s.pushed ≠ [] := by
      intro e; rw [e] at hx; simp at hx
    have hlen : 0 < s.pushed.length := List.length_pos.mpr hne
    have hl := hlast (s.pushed.length - 1) (by omega)
    rw [List.getLast?_eq_getElem?, hl] at hx
    have hidx : subSize s.rb.head_ 1 &&& RingBuffer.mask (2 ^ k) =
        (s.pushed.length - 1) % 2 ^ k := by
      have e : subSize s.rb.head_ 1 = (s.pushed.length - 1) % 2 ^ 64 := by
        rw [hhead]; unfold subSize sizeMod; omega
      rw [hP.and_mask, e, hP.mod_mod]
    rw [hidx]
    exact Option.some.inj hx
  · intro i hi1 hi2
    rw [hP.and_mask, hP.mod_mod]
    exact hinv.slots i hi1 hi2
  · intro cur_tail hc
    have h8 := hinv.consumer
    simp only [consumerInv, hc, sizeMod] at h8
    rw [hP.and_mask, h8.1, hP.mod_mod]
    exact hinv.slots _ (Nat.le_refl _) h8.2

/-- C17 witness: capacity 8; the producer has written slot 0 and not yet stored
`head_` while the consumer has loaded `tail_`. -/
theorem publication_order_witness :
    RingBuffer.IsPow2Capacity 8 ∧
    exec 8 [Move.callPush 1, Move.producer, Move.producer, Move.callPop, Move.consumer,
        Move.producer]
      (init (fun _ => (0 : Nat))) =
      some ⟨⟨0, 0, RingBuffer.setSlot (fun _ => 0) 0 1⟩,
        Producer.storeHead 1 0, Consumer.loadHead 0, [], []⟩ ∧
    (0 : Nat) = 0 ∧ RingBuffer.setSlot (fun _ => (0 : Nat)) 0 1 (0 &&& RingBuffer.mask 8) = 1 :=
  have hrun : exec 8 [Move.callPush 1, Move.producer, Move.producer, Move.callPop,
        Move.consumer, Move.producer]
      (init (fun _ => (0 : Nat))) =
      some ⟨⟨0, 0, RingBuffer.setSlot (fun _ => 0) 0 1⟩,
        Producer.storeHead 1 0, Consumer.loadHead 0, [], []⟩ := by rfl
  have h := (publication_order 8 ⟨3, by decide, rfl⟩ _ _ _ hrun).2.2.1 1 0 rfl
  ⟨⟨3, by decide, rfl⟩, hrun, h.1, h.2⟩

/-- C18 counterexample: capacity 8, one completed push, then a `try_pop` run up
to and including its `fetch_add`.  `tail_` is already 1, the value the producer
loads from now on, while the consumer has still to read slot 0 and has returned
nothing. -/
theorem tail_advanced_before_read :
    exec 8 [Move.callPush 1, Move.producer, Move.producer, Move.producer, Move.producer,
        Move.callPop, Move.consumer, Move.consumer, Move.consumer]
      (init (fun _ => (0 : Nat))) =
      some ⟨⟨1, 1, RingBuffer.setSlot (fun _ => 0) 0 1⟩,
        Producer.idle, Consumer.readSlot 0, [1], []⟩ := by
  rfl

/-- C18, amended: in a successful `try_pop` the tail update precedes the read of
the slot.  In every reachable state in which the consumer is about to do its
`fetch_add`, that step advances `tail_` by one, returns nothing yet and leads
to the slot read; and in every reachable state in which the consumer is about
to read slot `cur_tail & mask`, `tail_` is already `cur_tail + 1`, the slot
still holds the item pushed at that counter, and the read step leaves `tail_`
as it is and returns that item. -/
theorem pop_order (Capacity : Nat) (hC : RingBuffer.IsPow2Capacity Capacity)
    (slots : Nat → T) (ms : List (Move T)) (s : State T)
    (h : exec Capacity ms (init slots) = some s) :
    (s.consumer = Consumer.fetchAdd →
      ∃ s1, step Capacity Move.consumer s = some s1 ∧
        s1.rb.tail_ = addSize s.rb.tail_ 1 ∧ s1.popped = s.popped ∧
        s1.consumer = Consumer.readSlot s.rb.tail_) ∧
    (∀ cur_tail, s.consumer = Consumer.readSlot cur_tail →
      s.rb.tail_ = addSize cur_tail 1 ∧
      s.pushed[s.popped.length]? =
        some (s.rb.buffer_ (cur_tail &&& RingBuffer.mask Capacity)) ∧
      ∃ s1, step Capacity Move.consumer s = some s1 ∧
        s1.rb.tail_ = s.rb.tail_ ∧
        s1.popped = s.popped ++ [s.rb.buffer_ (cur_tail &&& RingBuffer.mask Capacity)] ∧
        s1.consumer = Consumer.idle) := by
  obtain ⟨k, hk, rfl⟩ := hC
  have hP := pow2_of hk
  have hinv := inv_exec hP ms (inv_init hP slots) h
  refine ⟨fun hc => ?_, fun cur_tail hc => ?_⟩
  · exact ⟨{ s with
        rb := { s.rb with tail_ := addSize s.rb.tail_ 1 }
        consumer := Consumer.readSlot s.rb.tail_ },
      by simp only [step, hc], rfl, rfl, rfl⟩
  · have h8 := hinv.consumer
    simp only [consumerInv, hc, sizeMod] at h8
    have h2 := hinv.tail_eq
    simp only [hc, claimed, sizeMod] at h2
    refine ⟨?_, ?_, ⟨{ s with
        consumer := Consumer.idle
        popped := s.popped ++ [s.rb.buffer_ (cur_tail &&& RingBuffer.mask (2 ^ k))] },
      by simp only [step, hc], rfl, rfl, rfl⟩⟩
    · rw [h2, h8.1]
      unfold addSize sizeMod
      omega
    · rw [hP.and_mask, h8.1, hP.mod_mod]
      exact hinv.slots _ (Nat.le_refl _) h8.2

/-- C18 witness: the state of the counterexample; slot 0 still holds the item
1 although `tail_` is already 1. -/
theorem pop_order_witness :
    RingBuffer.IsPow2Capacity 8 ∧
    exec 8 [Move.callPush 1, Move.producer, Move.producer, Move.producer, Move.producer,
        Move.callPop, Move.consumer, Move.consumer, Move.consumer]
      (init (fun _ => (0 : Nat))) =
      some ⟨⟨1, 1, RingBuffer.setSlot (fun _ => 0) 0 1⟩,
        Producer.idle, Consumer.readSlot 0, [1], []⟩ ∧
    (1 : Nat) = addSize 0 1 ∧
    [1][0]? = some (RingBuffer.setSlot (fun _ => (0 : Nat)) 0 1 (0 &&& RingBuffer.mask 8)) :=
  have hrun : exec 8 [Move.callPush 1, Move.producer, Move.producer, Move.producer,
        Move.producer, Move.callPop, Move.consumer, Move.consumer, Move.consumer]
      (init (fun _ => (0 : Nat))) =
      some ⟨⟨1, 1, RingBuffer.setSlot (fun _ => 0) 0 1⟩,
        Producer.idle, Consumer.readSlot 0, [1], []⟩ := by rfl
  have h := (pop_order 8 ⟨3, by decide, rfl⟩ _ _ _ hrun).2 0 rfl
  ⟨⟨3, by decide, rfl⟩, hrun, h.1, h.2.1⟩

end Conc

/-! ### The slot claimed by the consumer -/

namespace Conc

variable {T : Type}

/-- A step of the producer, or a call, taken while the consumer stands between
its `fetch_add` and its slot read: the consumer stays there and the slot it is
about to read keeps its content. -/
theorem claimed_slot_step {C : Nat} (hC : Pow2 C) (m : Move T) {s s1 : State T}
    (h : Inv C s) (cur_tail : Nat) (hc : s.consumer = Consumer.readSlot cur_tail)
    (hm : m ≠ Move.consumer) (hs : step C m s = some s1) :
    s1.consumer = Consumer.readSlot cur_tail ∧
    s1.rb.buffer_ (cur_tail &&& RingBuffer.mask C) =
      s.rb.buffer_ (cur_tail &&& RingBuffer.mask C) := by
  obtain ⟨rb, pr, co, pushed, popped⟩ := s
  dsimp only at hc
  subst hc
  have h1 := h.head_eq
  have h3 := h.tail_le
  have h7 := h.producer
  have h8 := h.consumer
  dsimp only at h1 h3
  simp only [sizeMod] at h1
  simp only [consumerInv, sizeMod] at h8
  simp only [claimed] at h3
  cases m with
  | consumer => exact absurd rfl hm
  | callPop => simp [step] at hs
  | callPush item =>
    cases pr <;> simp only [step, Option.some.injEq, reduceCtorEq] at hs
    subst hs; exact ⟨rfl, rfl⟩
  | producer =>
    cases pr with
    | idle => simp [step] at hs
    | loadHead item =>
      simp only [step, Option.some.injEq] at hs
      subst hs; exact ⟨rfl, rfl⟩
    | loadTail item t =>
      simp only [step] at hs
      split at hs <;> (simp only [Option.some.injEq] at hs; subst hs; exact ⟨rfl, rfl⟩)
    | storeHead item cur_head =>
      simp only [step, Option.some.injEq] at hs
      subst hs; exact ⟨rfl, rfl⟩
    | writeSlot item cur_head =>
      simp only [producerInv, claimed] at h7
      simp only [step, Option.some.injEq] at hs
      subst hs
      refine ⟨rfl, ?_⟩
      have hidx : cur_head &&& RingBuffer.mask C = pushed.length % C := by
        rw [hC.and_mask, h7.1]
        show rb.head_ % C = _
        rw [h1, hC.mod_mod]
      have hidx2 : cur_tail &&& RingBuffer.mask C = popped.length % C := by
        rw [hC.and_mask, h8.1, hC.mod_mod]
      have hne : popped.length % C ≠ pushed.length % C :=
        mod_ne_of_lt h8.2 (by have := h7.2; omega)
      show RingBuffer.setSlot rb.buffer_ (cur_head &&& RingBuffer.mask C) item
        (cur_tail &&& RingBuffer.mask C) = rb.buffer_ (cur_tail &&& RingBuffer.mask C)
      rw [hidx, hidx2]
      simp only [RingBuffer.setSlot, if_neg hne]

theorem claimed_slot_exec {C : Nat} (hC : Pow2 C) (cur_tail : Nat) (ms : List (Move T)) :
    ∀ {s s1 : State T}, Inv C s → s.consumer = Consumer.readSlot cur_tail →
      (∀ m ∈ ms, m ≠ Move.consumer) → exec C ms s = some s1 →
      s1.consumer = Consumer.readSlot cur_tail ∧
      s1.rb.buffer_ (cur_tail &&& RingBuffer.mask C) =
        s.rb.buffer_ (cur_tail &&& RingBuffer.mask C) := by
  induction ms with
  | nil =>
    intro s s1 _ hc _ hs
    simp only [exec, Option.some.injEq] at hs
    subst hs; exact ⟨hc, rfl⟩
  | cons m ms ih =>
    intro s s1 h hc hms hs
    simp only [exec] at hs
    cases hm : step C m s with
    | none => simp [hm] at hs
    | some s2 =>
      rw [hm] at hs
      have h2 := claimed_slot_step hC m h cur_tail hc
        (hms m (List.mem_cons_self m ms)) hm
      have h3 := ih (inv_step hC m h hm) h2.1
        (fun m1 hm1 => hms m1 (List.mem_cons_of_mem m hm1)) hs
      exact ⟨h3.1, h3.2.trans h2.2⟩

/-- C21: no overwrite of a claimed slot.  In every state an interleaving of one
producer and one consumer reaches on a buffer of power-of-two capacity, if the
consumer has advanced `tail_` and has still to read slot `cur_tail & mask`,
then a slot write the producer is about to make goes to a different index, the
slot holds the item pushed at that counter, and whatever the producer does
before the consumer's read (any moves other than the consumer's) leaves the
consumer at its read and the slot as it is. -/
theorem no_overwrite_of_claimed_slot (Capacity : Nat)
    (hC : RingBuffer.IsPow2Capacity Capacity) (slots : Nat → T) (ms : List (Move T))
    (s : State T) (h : exec Capacity ms (init slots) = some s) (cur_tail : Nat)
    (hc : s.consumer = Consumer.readSlot cur_tail) :
    (∀ item cur_head, s.producer = Producer.writeSlot item cur_head →
      cur_head &&& RingBuffer.mask Capacity ≠ cur_tail &&& RingBuffer.mask Capacity) ∧
    s.pushed[s.popped.length]? =
      some (s.rb.buffer_ (cur_tail &&& RingBuffer.mask Capacity)) ∧
    (∀ (ms2 : List (Move T)) (s2 : State T), (∀ m ∈ ms2, m ≠ Move.consumer) →
      exec Capacity ms2 s = some s2 →
      s2.consumer = Consumer.readSlot cur_tail ∧
      s2.rb.buffer_ (cur_tail &&& RingBuffer.mask Capacity) =
        s.rb.buffer_ (cur_tail &&& RingBuffer.mask Capacity)) := by
  obtain ⟨k, hk, rfl⟩ := hC
  have hP := pow2_of hk
  have hinv := inv_exec hP ms (inv_init hP slots) h
  have h8 := hinv.consumer
  simp only [consumerInv, hc, sizeMod] at h8
  refine ⟨?_, ?_, fun ms2 s2 hms hs => claimed_slot_exec hP cur_tail ms2 hinv hc hms hs⟩
  · intro item cur_head hp
    have h7 := hinv.producer
    simp only [producerInv, hp, hc, claimed] at h7
    rw [hP.and_mask, hP.and_mask, h7.1, hinv.head_eq, h8.1]
    simp only [sizeMod]
    rw [hP.mod_mod, hP.mod_mod]
    exact (mod_ne_of_lt h8.2 (by have := h7.2; omega)).symm
  · rw [hP.and_mask, h8.1, hP.mod_mod]
    exact hinv.slots _ (Nat.le_refl _) h8.2

/-- C21 witness: capacity 2, so a single usable slot.  The consumer has claimed
slot 0 and not yet read it; the producer, admitted after the `fetch_add`, is
about to write slot 1. -/
theorem no_overwrite_of_claimed_slot_witness :
    RingBuffer.IsPow2Capacity 2 ∧
    exec 2 [Move.callPush 1, Move.producer, Move.producer, Move.producer, Move.producer,
        Move.callPop, Move.consumer, Move.consumer, Move.consumer, Move.callPush 2,
        Move.producer, Move.producer]
      (init (fun _ => (0 : Nat))) =
      some ⟨⟨1, 1, RingBuffer.setSlot (fun _ => 0) 0 1⟩,
        Producer.writeSlot 2 1, Consumer.readSlot 0, [1], []⟩ ∧
    1 &&& RingBuffer.mask 2 ≠ 0 &&& RingBuffer.mask 2 :=
  have hrun : exec 2 [Move.callPush 1, Move.producer, Move.producer, Move.producer,
        Move.producer, Move.callPop, Move.consumer, Move.consumer, Move.consumer,
        Move.callPush 2, Move.producer, Move.producer]
      (init (fun _ => (0 : Nat))) =
      some ⟨⟨1, 1, RingBuffer.setSlot (fun _ => 0) 0 1⟩,
        Producer.writeSlot 2 1, Consumer.readSlot 0, [1], []⟩ := by rfl
  ⟨⟨1, by decide, rfl⟩, hrun,
    (no_overwrite_of_claimed_slot 2 ⟨1, by decide, rfl⟩ _ _ _ hrun 0 rfl).1 2 1 rfl⟩

end Conc

/-! ### Wraparound of the counters -/

namespace RingBuffer

variable {T : Type}

theorem maskedCapacity_of {k : Nat} (hk : k ≤ 64) : MaskedCapacity (2 ^ k) := by
  have hpos : 0 < 2 ^ k := Nat.pow_pos (by decide)
  have hle : 2 ^ k ≤ sizeMod := by
    unfold sizeMod
    exact Nat.pow_le_pow_right (by decide) hk
  have hm : mask (2 ^ k) = 2 ^ k - 1 := by
    unfold mask subSize
    have : 2 ^ k + sizeMod - 1 = (2 ^ k - 1) + sizeMod := by omega
    rw [this, Nat.add_mod_right]
    exact Nat.mod_eq_of_lt (by omega)
  refine ⟨hpos, hle, fun x => ?_, hm, fun x => ?_⟩
  · rw [hm, Nat.and_pow_two_sub_one_eq_mod]
  · unfold sizeMod
    exact Nat.mod_mod_of_dvd x (Nat.pow_dvd_pow 2 hk)

theorem MaskedCapacity.addSize_and {C : Nat} (hC : MaskedCapacity C) (t i : Nat) :
    addSize t i &&& mask C = (t + i) % C := by
  rw [hC.and_mask]
  exact hC.mod_mod _

theorem masked_push_full {C : Nat} (hC : MaskedCapacity C) {rb : RingBuffer T}
    {q : List T} (h : Abs C rb q) (hq : ¬ q.length < C - 1) (item : T) :
    try_push C item rb = (false, rb) := by
  have hd := h.distance hC.le
  have hlen : q.length < C := h.2.2.1
  have : subSize rb.head_ rb.tail_ &&& mask C = mask C := by
    rw [hC.and_mask, hC.mask_eq, hd, Nat.mod_eq_of_lt hlen]
    omega
  simp only [try_push, this, if_true]

theorem masked_push_ok {C : Nat} (hC : MaskedCapacity C) {rb : RingBuffer T}
    {q : List T} (h : Abs C rb q) (hq : q.length < C - 1) (item : T) :
    (try_push C item rb).1 = true ∧ Abs C (try_push C item rb).2 (q ++ [item]) := by
  have hd := h.distance hC.le
  have hM := hC.le
  obtain ⟨hh, ht, hlen, hhead, hc⟩ := h
  have hne : ¬ (subSize rb.head_ rb.tail_ &&& mask C = mask C) := by
    rw [hC.and_mask, hC.mask_eq, hd, Nat.mod_eq_of_lt hlen]
    omega
  simp only [try_push, if_neg hne, true_and]
  have hpos : 0 < sizeMod := by unfold sizeMod; decide
  refine ⟨Nat.mod_lt _ hpos, ht, ?_, ?_, ?_⟩
  · simp only [List.length_append, List.length_singleton]; omega
  · simp only [addSize, List.length_append, List.length_singleton]
    rw [hhead, Nat.mod_add_mod, Nat.add_assoc]
  · have hd2 : subSize (addSize rb.head_ 1) rb.tail_ = q.length + 1 := by
      have : addSize rb.head_ 1 = (rb.tail_ + (q.length + 1)) % sizeMod := by
        simp only [addSize]
        rw [hhead, Nat.mod_add_mod, Nat.add_assoc]
      rw [this]
      exact subSize_add ht (by omega)
    have hidx : rb.head_ &&& mask C = (rb.tail_ + q.length) % C := by
      rw [hhead]
      exact hC.addSize_and _ _
    simp only [contents, hd2, List.range_succ, List.map_append, List.map_singleton]
    congr 1
    · have hc2 := hc
      simp only [contents, hd] at hc2
      refine Eq.trans ?_ hc2
      apply List.map_congr_left
      intro i hi
      have hi2 : i < q.length := List.mem_range.mp hi
      have : addSize rb.tail_ i &&& mask C ≠ rb.head_ &&& mask C := by
        rw [hidx, hC.addSize_and]
        exact add_mod_ne hi2 hlen
      simp only [setSlot, if_neg this]
    · rw [hC.addSize_and, hidx]
      simp only [setSlot, if_true]

theorem masked_pop_cons {C : Nat} (hC : MaskedCapacity C) {rb : RingBuffer T} {y : T}
    {q : List T} (h : Abs C rb (y :: q)) (d : T) :
    (try_pop C d rb).1 = true ∧ (try_pop C d rb).2.1 = y ∧
    Abs C (try_pop C d rb).2.2 q := by
  have hd := h.distance hC.le
  have hM := hC.le
  obtain ⟨hh, ht, hlen, hhead, hc⟩ := h
  simp only [List.length_cons] at hlen hhead hd
  have hne : ¬ (rb.tail_ = rb.head_) := by
    intro he
    rw [← he] at hd
    unfold subSize sizeMod at *
    omega
  have hpos : 0 < sizeMod := by unfold sizeMod; decide
  simp only [try_pop, if_neg hne, true_and]
  simp only [contents, hd, List.range_succ_eq_map, List.map_cons, List.map_map,
    List.cons.injEq] at hc
  obtain ⟨hy, hq⟩ := hc
  have hz : addSize rb.tail_ 0 = rb.tail_ := by
    simp only [addSize, Nat.add_zero]; exact Nat.mod_eq_of_lt ht
  rw [hz] at hy
  refine ⟨hy, hh, Nat.mod_lt _ hpos, by omega, ?_, ?_⟩
  · simp only [addSize]
    rw [hhead, Nat.mod_add_mod]
    congr 1; omega
  · have hd2 : subSize rb.head_ (addSize rb.tail_ 1) = q.length := by
      have : rb.head_ = (addSize rb.tail_ 1 + q.length) % sizeMod := by
        simp only [addSize]
        rw [hhead, Nat.mod_add_mod]
        congr 1; omega
      rw [this]
      exact subSize_add (Nat.mod_lt _ hpos) (by omega)
    simp only [contents, hd2]
    refine Eq.trans ?_ hq
    apply List.map_congr_left
    intro i _
    simp only [Function.comp, hC.addSize_and]
    congr 1
    simp only [addSize]
    rw [Nat.add_mod, hC.mod_mod, ← Nat.add_mod]
    congr 1; omega

theorem masked_call_refines {C : Nat} (hC : MaskedCapacity C) (d : T) (op : Op T)
    {rb : RingBuffer T} {q : List T} (h : Abs C rb q) :
    (call C d op rb).1 = (QueueSpec.call C op q).1 ∧
    Abs C (call C d op rb).2 (QueueSpec.call C op q).2 := by
  cases op with
  | push item =>
    by_cases hq : q.length < C - 1
    · have hp := masked_push_ok hC h hq item
      simp only [call, QueueSpec.call, if_pos hq, hp.1]
      exact ⟨trivial, hp.2⟩
    · have hp := masked_push_full hC h hq item
      simp only [call, QueueSpec.call, if_neg hq, hp]
      exact ⟨trivial, h⟩
  | pop =>
    cases q with
    | nil =>
      have hp := abs_pop_nil h d
      simp only [call, QueueSpec.call, hp]
      exact ⟨by simp, h⟩
    | cons y q =>
      have hp := masked_pop_cons hC h d
      simp only [call, QueueSpec.call, hp.1, hp.2.1, if_true]
      exact ⟨trivial, hp.2.2⟩

theorem masked_runCalls_refines {C : Nat} (hC : MaskedCapacity C) (d : T)
    (ops : List (Op T)) :
    ∀ (rb : RingBuffer T) (q : List T), Abs C rb q →
      (runCalls C d ops rb).1 = (QueueSpec.run C ops q).1 ∧
      Abs C (runCalls C d ops rb).2 (QueueSpec.run C ops q).2 := by
  induction ops with
  | nil => intro rb q h; exact ⟨rfl, h⟩
  | cons op ops ih =>
    intro rb q h
    have h1 := masked_call_refines hC d op h
    have h2 := ih _ _ h1.2
    simp only [runCalls, QueueSpec.run]
    exact ⟨by rw [h1.1, h2.1], h2.2⟩

/-- Any state whose counters are `size_t` values less than the capacity apart
holds the queue read off its slots. -/
theorem abs_contents {C : Nat} (rb : RingBuffer T) (hh : rb.head_ < sizeMod)
    (ht : rb.tail_ < sizeMod) (hd : subSize rb.head_ rb.tail_ < C) :
    Abs C rb (contents C rb) := by
  have hl : (contents C rb).length = subSize rb.head_ rb.tail_ := by
    simp only [contents, List.length_map, List.length_range]
  refine ⟨hh, ht, by rw [hl]; exact hd, ?_, rfl⟩
  rw [hl]
  unfold subSize sizeMod at *
  omega

end RingBuffer

namespace RingBuffer

variable {T : Type}

/-- C22: counter wraparound is harmless.  Let the capacity be a power of two up
to `2 ^ 64` and take any state whose counters are 64-bit values at most
`Capacity - 1` apart (unsigned difference), wherever they stand, also with
`head_` about to wrap or already wrapped past `tail_`.  Then after any sequence
of `try_push` and `try_pop` calls the difference is again at most
`Capacity - 1`, the calls return what the bounded list queue started with the
buffered values returns, the buffered values are that queue, nothing is lost
or reordered, and the slot index `counter & mask` of a counter advanced by one
is the next index modulo the capacity, also across the wrap. -/
theorem wraparound_harmless (Capacity : Nat) (hC : ∃ k, k ≤ 64 ∧ Capacity = 2 ^ k) (d : T)
    (rb : RingBuffer T) (hh : rb.head_ < 2 ^ 64) (ht : rb.tail_ < 2 ^ 64)
    (hd : subSize rb.head_ rb.tail_ ≤ Capacity - 1) (ops : List (Op T)) :
    subSize (runCalls Capacity d ops rb).2.head_ (runCalls Capacity d ops rb).2.tail_ ≤
      Capacity - 1 ∧
    (runCalls Capacity d ops rb).2.head_ < 2 ^ 64 ∧
    (runCalls Capacity d ops rb).2.tail_ < 2 ^ 64 ∧
    (runCalls Capacity d ops rb).1 =
      (QueueSpec.run Capacity ops (contents Capacity rb)).1 ∧
    contents Capacity (runCalls Capacity d ops rb).2 =
      (QueueSpec.run Capacity ops (contents Capacity rb)).2 ∧
    contents Capacity rb ++ pushedValues ops (runCalls Capacity d ops rb).1 =
      poppedValues (runCalls Capacity d ops rb).1 ++
        contents Capacity (runCalls Capacity d ops rb).2 ∧
    (∀ x, addSize x 1 &&& mask Capacity = ((x &&& mask Capacity) + 1) % Capacity) ∧
    (∀ x, x &&& mask Capacity < Capacity) := by
  obtain ⟨k, hk, rfl⟩ := hC
  have hM := maskedCapacity_of hk
  have hpos := hM.pos
  have h0 : Abs (2 ^ k) rb (contents (2 ^ k) rb) :=
    abs_contents rb hh ht (by omega)
  have hr := masked_runCalls_refines hM d ops rb _ h0
  have hdist := hr.2.distance hM.le
  have hlen : (QueueSpec.run (2 ^ k) ops (contents (2 ^ k) rb)).2.length < 2 ^ k :=
    hr.2.2.2.1
  have hv := QueueSpec.run_values (2 ^ k) ops (contents (2 ^ k) rb)
  refine ⟨by rw [hdist]; omega, hr.2.1, hr.2.2.1, hr.1, hr.2.2.2.2.2, ?_, fun x => ?_,
    fun x => ?_⟩
  · rw [hr.1, hr.2.2.2.2.2]
    exact hv
  · rw [hM.addSize_and, hM.and_mask, Nat.mod_add_mod]
  · rw [hM.and_mask]
    exact Nat.mod_lt _ hpos

/-- C22 witness: capacity 8, `tail_` at `2 ^ 64 - 3` and `head_` at `2 ^ 64 - 1`
with 15 and 16 buffered; the first push moves `head_` to 0 while `tail_` is
still below the wrap. -/
theorem wraparound_harmless_witness :
    (∃ k, k ≤ 64 ∧ 8 = 2 ^ k) ∧
    (18446744073709551615 : Nat) < 2 ^ 64 ∧ (18446744073709551613 : Nat) < 2 ^ 64 ∧
    subSize 18446744073709551615 18446744073709551613 ≤ 8 - 1 ∧
    (runCalls 8 0 [Op.push 30, Op.pop, Op.pop, Op.pop, Op.push 40, Op.pop]
      (⟨18446744073709551615, 18446744073709551613, fun i => 10 + i⟩ : RingBuffer Nat)).1 =
      [Ret.push true, Ret.pop (some 15), Ret.pop (some 16), Ret.pop (some 30),
        Ret.push true, Ret.pop (some 40)] ∧
    addSize 18446744073709551615 1 &&& mask 8 =
      ((18446744073709551615 &&& mask 8) + 1) % 8 :=
  have h := wraparound_harmless 8 ⟨3, by decide, rfl⟩ (0 : Nat)
    (⟨18446744073709551615, 18446744073709551613, fun i => 10 + i⟩ : RingBuffer Nat)
    (by decide) (by decide) (by decide)
    [Op.push 30, Op.pop, Op.pop, Op.pop, Op.push 40, Op.pop]
  ⟨⟨3, by decide, rfl⟩, by decide, by decide, by decide, h.2.2.2.1.trans (by rfl),
    h.2.2.2.2.2.2.1 18446744073709551615⟩

end RingBuffer

/-! ### The `buffer_size` argument -/

namespace Logger

theorem log_ring_buffer (uninit : LogEntry) (now : Nat) (message : List Nat) (lg : Logger) :
    (log uninit now message lg).ring_buffer_ =
      (RingBuffer.try_push Capacity (buildEntry uninit now message) lg.ring_buffer_).2 := by
  cases hp : (RingBuffer.try_push Capacity (buildEntry uninit now message)
      lg.ring_buffer_).1 <;> simp only [log, hp, Bool.not_true, Bool.not_false,
        Bool.false_eq_true, if_false, if_true]

/-- Consecutive `log` calls on a logger whose ring buffer holds `q`: the call
number `i` is enqueued iff `q.length + i < 1023`. -/
theorem pushTrace_logEvents (calls : List (LogEntry × Nat × List Nat)) :
    ∀ (st : LogEntry × Logger) (q : List LogEntry),
      RingBuffer.Abs Capacity st.2.ring_buffer_ q →
      (pushTrace (logEvents calls) st).map Prod.snd =
        (List.range calls.length).map (fun i => decide (q.length + i < 1023)) := by
  induction calls with
  | nil => intro st q _; rfl
  | cons c calls ih =>
    intro st q h
    obtain ⟨uninit, now, message⟩ := c
    have hrb : (step (Event.log uninit now message) st).2.ring_buffer_ =
        (RingBuffer.try_push Capacity (buildEntry uninit now message)
          st.2.ring_buffer_).2 := log_ring_buffer uninit now message st.2
    have hcons : pushTrace (logEvents ((uninit, now, message) :: calls)) st =
        (buildEntry uninit now message,
          (RingBuffer.try_push Capacity (buildEntry uninit now message)
            st.2.ring_buffer_).1) ::
          pushTrace (logEvents calls) (step (Event.log uninit now message) st) := rfl
    rw [hcons, List.map_cons, List.length_cons, List.range_succ_eq_map, List.map_cons,
      List.map_map]
    rw [Capacity_eq] at h
    by_cases hq : q.length < 2 ^ 10 - 1
    · have hp := RingBuffer.abs_push_ok (by decide : 10 < 64) h hq
        (buildEntry uninit now message)
      rw [← Capacity_eq] at hp
      have h2 : RingBuffer.Abs Capacity
          (step (Event.log uninit now message) st).2.ring_buffer_
          (q ++ [buildEntry uninit now message]) := by
        rw [hrb]; exact hp.2
      rw [ih _ _ h2, hp.1]
      congr 1
      · simp only [Nat.add_zero]
        exact (decide_eq_true (by omega)).symm
      · apply List.map_congr_left
        intro i _
        simp only [List.length_append, List.length_singleton, Function.comp]
        congr 1
        apply propext
        constructor <;> intro hh <;> omega
    · have hp := RingBuffer.abs_push_full (by decide : 10 < 64) h hq
        (buildEntry uninit now message)
      rw [← Capacity_eq] at hp h
      have h2 : RingBuffer.Abs Capacity
          (step (Event.log uninit now message) st).2.ring_buffer_ q := by
        rw [hrb, hp]; exact h
      rw [ih _ _ h2, hp]
      congr 1
      · simp only [Nat.add_zero]
        exact (decide_eq_false (by omega)).symm
      · apply List.map_congr_left
        intro i _
        simp only [Function.comp]
        rw [decide_eq_false (by omega), decide_eq_false (by omega)]

theorem failedPushes_eq (trace : List (LogEntry × Bool)) :
    failedPushes trace = ((trace.map Prod.snd).filter (fun b => !b)).length := by
  induction trace with
  | nil => rfl
  | cons p trace ih =>
    rcases p with ⟨e, b⟩
    cases b <;> simp only [failedPushes, List.filter_cons, List.map_cons, Bool.not_true,
      Bool.not_false, Bool.false_eq_true, if_false, if_true, List.length_cons] at ih ⊢
    · rw [ih]
    · exact ih

theorem count_refused (n : Nat) :
    (((List.range n).map (fun i => decide (i < 1023))).filter (fun b => !b)).length =
      n - 1023 := by
  induction n with
  | zero => rfl
  | succ n ih =>
    rw [List.range_succ, List.map_append, List.filter_append, List.length_append, ih]
    by_cases h : n < 1023
    · simp only [List.map_cons, List.map_nil, List.filter_cons, decide_eq_true h,
        Bool.not_true, Bool.false_eq_true, if_false, List.filter_nil, List.length_nil]
      omega
    · simp only [List.map_cons, List.map_nil, List.filter_cons, decide_eq_false h,
        Bool.not_false, if_true, List.filter_nil, List.length_cons, List.length_nil]
      omega

end Logger

namespace Logger

/-- C23: the `buffer_size` argument has no effect.  The constructor returns the
same result for every two `buffer_size` values; so two loggers built with
different values and given the same `log` calls (same clock readings and
messages) and worker passes are in the same state after them, with the same
sink contents and drop count, and the destructor leaves them in the same
state.  With no pass of the worker, whatever `buffer_size` was given, call
number `i` (from 0) is enqueued iff `i < 1023`: the first 1023 calls are
enqueued, the 1024th and all later ones are dropped, and the drop counter is
the number of calls beyond 1023 as a `uint64_t`. -/
theorem buffer_size_has_no_effect :
    (∀ (opens : Bool) (b1 b2 : Nat) (init : Nat → LogEntry),
      new opens b1 init = new opens b2 init) ∧
    (∀ (b1 b2 : Nat) (init : Nat → LogEntry) (lg1 lg2 : Logger) (e0 : LogEntry)
        (evs : List Event),
      new true b1 init = Except.ok lg1 → new true b2 init = Except.ok lg2 →
      run evs (e0, lg1) = run evs (e0, lg2) ∧
      (run evs (e0, lg1)).2.log_file_ = (run evs (e0, lg2)).2.log_file_ ∧
      get_dropped_count (run evs (e0, lg1)).2 = get_dropped_count (run evs (e0, lg2)).2 ∧
      ∀ fuel, destroy fuel (run evs (e0, lg1)) = destroy fuel (run evs (e0, lg2))) ∧
    (∀ (b : Nat) (init : Nat → LogEntry) (lg0 : Logger) (e0 : LogEntry)
        (calls : List (LogEntry × Nat × List Nat)),
      new true b init = Except.ok lg0 →
      (pushTrace (logEvents calls) (e0, lg0)).map Prod.snd =
        (List.range calls.length).map (fun i => decide (i < 1023)) ∧
      (enqueued (pushTrace (logEvents calls) (e0, lg0))).length = min calls.length 1023 ∧
      failedPushes (pushTrace (logEvents calls) (e0, lg0)) = calls.length - 1023 ∧
      get_dropped_count (run (logEvents calls) (e0, lg0)).2 =
        (calls.length - 1023) % 2 ^ 64) := by
  refine ⟨fun opens b1 b2 init => rfl, ?_, ?_⟩
  · intro b1 b2 init lg1 lg2 e0 evs h1 h2
    have e : lg1 = lg2 := by
      have h3 : new true b1 init = new true b2 init := rfl
      rw [h1, h2] at h3
      exact Except.ok.inj h3
    subst e
    exact ⟨rfl, rfl, rfl, fun _ => rfl⟩
  · intro b init lg0 e0 calls h
    have hlg : lg0.ring_buffer_ = RingBuffer.new init ∧ lg0.dropped_count_ = 0 := by
      simp only [new, Bool.not_true, Bool.false_eq_true, if_false, Except.ok.injEq] at h
      rw [← h]; exact ⟨rfl, rfl⟩
    have h0 : RingBuffer.Abs Capacity (e0, lg0).2.ring_buffer_ [] := by
      rw [Capacity_eq]
      show RingBuffer.Abs (2 ^ 10) lg0.ring_buffer_ []
      rw [hlg.1]; exact RingBuffer.abs_new init
    have ht := pushTrace_logEvents calls (e0, lg0) [] h0
    simp only [List.length_nil, Nat.zero_add] at ht
    have hf : failedPushes (pushTrace (logEvents calls) (e0, lg0)) = calls.length - 1023 := by
      rw [failedPushes_eq, ht, count_refused]
    have hn : (pushTrace (logEvents calls) (e0, lg0)).length = calls.length := by
      have := congrArg List.length ht
      simpa only [List.length_map, List.length_range] using this
    have hsum := failed_add_enqueued (pushTrace (logEvents calls) (e0, lg0))
    have hd := run_dropped (logEvents calls) (e0, lg0) (by
      show lg0.dropped_count_ < 2 ^ 64
      rw [hlg.2]; decide)
    refine ⟨ht, by omega, hf, ?_⟩
    show (run (logEvents calls) (e0, lg0)).2.dropped_count_ = _
    rw [hd, hf]
    show (lg0.dropped_count_ + (calls.length - 1023)) % 2 ^ 64 = _
    rw [hlg.2, Nat.zero_add]

/-- C23 witness: `buffer_size` 16 and 4096, three `log` calls and a pass of the
worker. -/
theorem buffer_size_has_no_effect_witness :
    new true 16 (fun _ => ⟨List.replicate 512 0, 0, 0⟩) =
      Except.ok ⟨RingBuffer.new (fun _ => ⟨List.replicate 512 0, 0, 0⟩), true, false, 0, []⟩ ∧
    new true 4096 (fun _ => ⟨List.replicate 512 0, 0, 0⟩) =
      Except.ok ⟨RingBuffer.new (fun _ => ⟨List.replicate 512 0, 0, 0⟩), true, false, 0, []⟩ ∧
    (pushTrace (logEvents [(⟨List.replicate 512 0, 0, 0⟩, 7, [104, 105]),
        (⟨List.replicate 512 0, 0, 0⟩, 8, [104, 111]),
        (⟨List.replicate 512 0, 0, 0⟩, 9, [104])])
      (⟨List.replicate 512 0, 0, 0⟩,
        ⟨RingBuffer.new (fun _ => ⟨List.replicate 512 0, 0, 0⟩), true, false, 0, []⟩)).map
      Prod.snd = [true, true, true] ∧
    get_dropped_count (run (logEvents [(⟨List.replicate 512 0, 0, 0⟩, 7, [104, 105]),
        (⟨List.replicate 512 0, 0, 0⟩, 8, [104, 111]),
        (⟨List.replicate 512 0, 0, 0⟩, 9, [104])])
      (⟨List.replicate 512 0, 0, 0⟩,
        ⟨RingBuffer.new (fun _ => ⟨List.replicate 512 0, 0, 0⟩), true, false, 0, []⟩)).2 = 0 ∧
    (run [Event.log ⟨List.replicate 512 0, 0, 0⟩ 7 [104, 105], Event.worker]
      (⟨List.replicate 512 0, 0, 0⟩,
        ⟨RingBuffer.new (fun _ => ⟨List.replicate 512 0, 0, 0⟩), true, false, 0, []⟩)
      ).2.log_file_ =
    (run [Event.log ⟨List.replicate 512 0, 0, 0⟩ 7 [104, 105], Event.worker]
      (⟨List.replicate 512 0, 0, 0⟩,
        ⟨RingBuffer.new (fun _ => ⟨List.replicate 512 0, 0, 0⟩), true, false, 0, []⟩)
      ).2.log_file_ :=
  have h2 := buffer_size_has_no_effect.2.1 16 4096 (fun _ => ⟨List.replicate 512 0, 0, 0⟩)
    ⟨RingBuffer.new (fun _ => ⟨List.replicate 512 0, 0, 0⟩), true, false, 0, []⟩
    ⟨RingBuffer.new (fun _ => ⟨List.replicate 512 0, 0, 0⟩), true, false, 0, []⟩
    ⟨List.replicate 512 0, 0, 0⟩
    [Event.log ⟨List.replicate 512 0, 0, 0⟩ 7 [104, 105], Event.worker] rfl rfl
  have h := buffer_size_has_no_effect.2.2 16 (fun _ => ⟨List.replicate 512 0, 0, 0⟩)
    ⟨RingBuffer.new (fun _ => ⟨List.replicate 512 0, 0, 0⟩), true, false, 0, []⟩
    ⟨List.replicate 512 0, 0, 0⟩
    [(⟨List.replicate 512 0, 0, 0⟩, 7, [104, 105]),
      (⟨List.replicate 512 0, 0, 0⟩, 8, [104, 111]),
      (⟨List.replicate 512 0, 0, 0⟩, 9, [104])] rfl
  ⟨rfl, rfl, h.1, h.2.2.2, h2.2.1⟩

end Logger

/-! ### The drop counter beyond `2 ^ 64` failed pushes -/

namespace Logger

/-- Consecutive `log` calls on a freshly constructed logger, with no pass of the
worker: the counts of the run. -/
theorem fresh_logEvents (buffer_size : Nat) (init : Nat → LogEntry) (lg0 : Logger)
    (e0 : LogEntry) (calls : List (LogEntry × Nat × List Nat))
    (h : new true buffer_size init = Except.ok lg0) :
    logCalls (logEvents calls) = calls.length ∧
    failedPushes (pushTrace (logEvents calls) (e0, lg0)) = calls.length - 1023 ∧
    (enqueued (pushTrace (logEvents calls) (e0, lg0))).length = min calls.length 1023 ∧
    get_dropped_count (run (logEvents calls) (e0, lg0)).2 =
      (calls.length - 1023) % 2 ^ 64 := by
  have hlg : lg0.ring_buffer_ = RingBuffer.new init ∧ lg0.dropped_count_ = 0 := by
    simp only [new, Bool.not_true, Bool.false_eq_true, if_false, Except.ok.injEq] at h
    rw [← h]; exact ⟨rfl, rfl⟩
  have h0 : RingBuffer.Abs Capacity (e0, lg0).2.ring_buffer_ [] := by
    rw [Capacity_eq]
    show RingBuffer.Abs (2 ^ 10) lg0.ring_buffer_ []
    rw [hlg.1]; exact RingBuffer.abs_new init
  have ht := pushTrace_logEvents calls (e0, lg0) [] h0
  simp only [List.length_nil, Nat.zero_add] at ht
  have hf : failedPushes (pushTrace (logEvents calls) (e0, lg0)) = calls.length - 1023 := by
    rw [failedPushes_eq, ht, count_refused]
  have hn : (pushTrace (logEvents calls) (e0, lg0)).length = calls.length := by
    have := congrArg List.length ht
    simpa only [List.length_map, List.length_range] using this
  have hcalls : logCalls (logEvents calls) = calls.length := by
    rw [← pushTrace_length (logEvents calls) (e0, lg0)]; exact hn
  have hsum := failed_add_enqueued (pushTrace (logEvents calls) (e0, lg0))
  have hd := run_dropped (logEvents calls) (e0, lg0) (by
    show lg0.dropped_count_ < 2 ^ 64
    rw [hlg.2]; decide)
  refine ⟨hcalls, hf, by omega, ?_⟩
  show (run (logEvents calls) (e0, lg0)).2.dropped_count_ = _
  rw [hd, hf]
  show (lg0.dropped_count_ + (calls.length - 1023)) % 2 ^ 64 = _
  rw [hlg.2, Nat.zero_add]

/-- C9 counterexample: `2 ^ 64 + 1023` consecutive `log` calls on a freshly
constructed logger, with no pass of the worker.  1023 entries are enqueued and
`2 ^ 64` pushes fail, while `get_dropped_count()` is 0: it is not the number of
failed pushes, and added to the number of enqueued entries it gives 1023, not
the number of calls. -/
theorem drop_counter_wraps :
    new true 1024 (fun _ => ⟨List.replicate 512 0, 0, 0⟩) =
      Except.ok ⟨RingBuffer.new (fun _ => ⟨List.replicate 512 0, 0, 0⟩), true, false, 0, []⟩ ∧
    logCalls (logEvents (List.replicate 18446744073709552639
      (⟨List.replicate 512 0, 0, 0⟩, 7, [104, 105]))) = 18446744073709552639 ∧
    failedPushes (pushTrace (logEvents (List.replicate 18446744073709552639
        (⟨List.replicate 512 0, 0, 0⟩, 7, [104, 105])))
      (⟨List.replicate 512 0, 0, 0⟩,
        ⟨RingBuffer.new (fun _ => ⟨List.replicate 512 0, 0, 0⟩), true, false, 0, []⟩)) =
      18446744073709551616 ∧
    (enqueued (pushTrace (logEvents (List.replicate 18446744073709552639
        (⟨List.replicate 512 0, 0, 0⟩, 7, [104, 105])))
      (⟨List.replicate 512 0, 0, 0⟩,
        ⟨RingBuffer.new (fun _ => ⟨List.replicate 512 0, 0, 0⟩), true, false, 0, []⟩))
      ).length = 1023 ∧
    get_dropped_count (run (logEvents (List.replicate 18446744073709552639
        (⟨List.replicate 512 0, 0, 0⟩, 7, [104, 105])))
      (⟨List.replicate 512 0, 0, 0⟩,
        ⟨RingBuffer.new (fun _ => ⟨List.replicate 512 0, 0, 0⟩), true, false, 0, []⟩)).2 =
      0 ∧
    get_dropped_count (run (logEvents (List.replicate 18446744073709552639
        (⟨List.replicate 512 0, 0, 0⟩, 7, [104, 105])))
      (⟨List.replicate 512 0, 0, 0⟩,
        ⟨RingBuffer.new (fun _ => ⟨List.replicate 512 0, 0, 0⟩), true, false, 0, []⟩)).2 ≠
      failedPushes (pushTrace (logEvents (List.replicate 18446744073709552639
        (⟨List.replicate 512 0, 0, 0⟩, 7, [104, 105])))
      (⟨List.replicate 512 0, 0, 0⟩,
        ⟨RingBuffer.new (fun _ => ⟨List.replicate 512 0, 0, 0⟩), true, false, 0, []⟩)) ∧
    get_dropped_count (run (logEvents (List.replicate 18446744073709552639
        (⟨List.replicate 512 0, 0, 0⟩, 7, [104, 105])))
      (⟨List.replicate 512 0, 0, 0⟩,
        ⟨RingBuffer.new (fun _ => ⟨List.replicate 512 0, 0, 0⟩), true, false, 0, []⟩)).2 +
      (enqueued (pushTrace (logEvents (List.replicate 18446744073709552639
        (⟨List.replicate 512 0, 0, 0⟩, 7, [104, 105])))
      (⟨List.replicate 512 0, 0, 0⟩,
        ⟨RingBuffer.new (fun _ => ⟨List.replicate 512 0, 0, 0⟩), true, false, 0, []⟩))).length ≠
      logCalls (logEvents (List.replicate 18446744073709552639
        (⟨List.replicate 512 0, 0, 0⟩, 7, [104, 105]))) := by
  have h := fresh_logEvents 1024 (fun _ => ⟨List.replicate 512 0, 0, 0⟩)
    ⟨RingBuffer.new (fun _ => ⟨List.replicate 512 0, 0, 0⟩), true, false, 0, []⟩
    ⟨List.replicate 512 0, 0, 0⟩
    (List.replicate 18446744073709552639 (⟨List.replicate 512 0, 0, 0⟩, 7, [104, 105])) rfl
  rw [List.length_replicate] at h
  have e1 : (18446744073709552639 : Nat) - 1023 = 18446744073709551616 := by decide
  have e2 : min (18446744073709552639 : Nat) 1023 = 1023 := by decide
  have e3 : (18446744073709551616 : Nat) % 2 ^ 64 = 0 := by decide
  rw [e1, e2, e3] at h
  refine ⟨rfl, h.1, h.2.1, h.2.2.1, h.2.2.2, ?_, ?_⟩
  · rw [h.2.2.2, h.2.1]; decide
  · rw [h.2.2.2, h.2.2.1, h.1]; decide

end Logger
